import Mathlib

/-!
Verification of the segmentation engine of `src/splitter.py` (audio-splitter).

The embedding below translates the source functions into Lean over ideal real
arithmetic: numpy float arrays become lists of reals (or functions from sample
index to real for the input buffer), numpy operations become the corresponding
exact operations.  Machine-integer quantities (frame indices, sample offsets)
are natural numbers; Python floor division on possibly negative ints is Int.fdiv.

Source correspondence:
  compute_rms                -> computeRms / frameRms
  compute_spectral_bandwidth -> computeSpectralBandwidth / frameBandwidth
  amplitude_to_db            -> amplitudeToDb
  smooth (np.convolve same)  -> smooth / convolveSame / convolveFull
  detect_splits              -> detectSplitsDiag (internal values exposed in a
                                SplitDiag record; the function's return value is
                                the .segments field, cf. detectSplits)
-/

namespace Splitter

open Finset

/-- The `Segment` dataclass of the source: one detected song segment. -/
structure Segment where
  index : ℕ
  start_sec : ℝ
  end_sec : ℝ
  duration_sec : ℝ



/-- Number of analysis frames, `1 + (len(audio) - frame_length) // hop_length`
with Python floor division. -/
def nFramesZ (total fl hop : ℕ) : ℤ := 1 + Int.fdiv ((total : ℤ) - (fl : ℤ)) (hop : ℤ)

/-- RMS of the frame starting at sample `start`:
`np.sqrt(np.mean(frame ** 2))` over a window of `fl` samples. -/
noncomputable def frameRms (audio : ℕ → ℝ) (fl : ℕ) (start : ℕ) : ℝ :=
  Real.sqrt ((∑ t in range fl, audio (start + t) ^ 2) / (fl : ℝ))

/-- `compute_rms`: per-frame RMS energies. -/
noncomputable def computeRms (audio : ℕ → ℝ) (fl hop n : ℕ) : List ℝ :=
  (List.range n).map fun i => frameRms audio fl (i * hop)

/-- `np.hanning(m)` at position `t`: `0.5 - 0.5*cos(2*pi*t/(m-1))`. -/
noncomputable def hann (m t : ℕ) : ℝ :=
  1 / 2 - Real.cos (2 * Real.pi * t / ((m - 1 : ℕ) : ℝ)) / 2

/-- Bin `k` of the real FFT of the length-`len` signal `g`:
`sum_t g t * exp(-2*pi*I*k*t/len)`. -/
noncomputable def rfftBin (g : ℕ → ℝ) (len k : ℕ) : ℂ :=
  ∑ t in range len, (g t : ℂ) *
    Complex.exp ((-(2 * Real.pi * (k : ℝ) * (t : ℝ) / (len : ℝ)) : ℝ) * Complex.I)

/-- Power (`np.abs(np.fft.rfft(...)) ** 2`) of spectrum bin `k` of the
Hann-windowed frame starting at `start`. -/
noncomputable def framePower (audio : ℕ → ℝ) (fl start k : ℕ) : ℝ :=
  Complex.abs (rfftBin (fun t => audio (start + t) * hann fl t) fl k) ^ 2

/-- Total spectral power of a frame over the `fl/2 + 1` non-negative bins. -/
noncomputable def frameTotalPower (audio : ℕ → ℝ) (fl start : ℕ) : ℝ :=
  ∑ k in range (fl / 2 + 1), framePower audio fl start k

/-- `np.fft.rfftfreq(fl, 1/sr)` at bin `k`: the frequency `k*sr/fl`. -/
noncomputable def rfftFreq (fl sr k : ℕ) : ℝ := (k : ℝ) * (sr : ℝ) / (fl : ℝ)

/-- Spectral bandwidth of one frame: `0` when the total power is below `1e-20`,
otherwise the power-weighted RMS deviation of bin frequencies from the
power-weighted centroid. -/
noncomputable def frameBandwidth (audio : ℕ → ℝ) (sr fl start : ℕ) : ℝ :=
  if frameTotalPower audio fl start < 1 / 10 ^ 20 then 0
  else
    Real.sqrt ((∑ k in range (fl / 2 + 1),
        (rfftFreq fl sr k -
            (∑ j in range (fl / 2 + 1), rfftFreq fl sr j * framePower audio fl start j) /
              frameTotalPower audio fl start) ^ 2 * framePower audio fl start k) /
      frameTotalPower audio fl start)

/-- `compute_spectral_bandwidth`: per-frame spectral bandwidths. -/
noncomputable def computeSpectralBandwidth (audio : ℕ → ℝ) (sr fl hop n : ℕ) : List ℝ :=
  (List.range n).map fun i => frameBandwidth audio sr fl (i * hop)

/-- `np.max` over a list (junk value `0` for `[]`; the empty case is the
zero-size-reduction error path, handled in `detectSplitsE`). -/
noncomputable def npMax : List ℝ → ℝ
  | [] => 0
  | x :: xs => xs.foldl max x

/-- `amplitude_to_db`: max-referenced dB conversion with `-80` floor when the
reference is zero and a `1e-10` ratio floor otherwise. -/
noncomputable def amplitudeToDb (amp : List ℝ) : List ℝ :=
  if npMax amp = 0 then amp.map fun _ => -80
  else amp.map fun a => 20 * Real.logb 10 (max (a / npMax amp) (1 / 10 ^ 10))

/-- Full convolution of `data` with the averaging kernel `ones(w)/w`. -/
noncomputable def convolveFull (data : List ℝ) (w : ℕ) : List ℝ :=
  (List.range (data.length + w - 1)).map fun k =>
    (∑ j in range data.length, if j ≤ k ∧ k < j + w then data.getD j 0 else 0) / (w : ℝ)

/-- `np.convolve(data, ones(w)/w, mode='same')`: the centered slice of length
`max n w` of the full convolution, starting at `(min n w - 1) / 2`. -/
noncomputable def convolveSame (data : List ℝ) (w : ℕ) : List ℝ :=
  ((convolveFull data w).drop ((min data.length w - 1) / 2)).take (max data.length w)

/-- `smooth`: moving average; identity when the window is `<= 1`. -/
noncomputable def smooth (data : List ℝ) (w : ℕ) : List ℝ :=
  if w ≤ 1 then data else convolveSame data w

/-- `smooth_frames = max(1, int(1.0 / frame_to_sec))`, i.e. about one second of
frames: `max 1 (sr / hop)` with integer division. -/
def smoothFrames (sr hop : ℕ) : ℕ := max 1 (sr / hop)

/-- `np.sort` (ascending). -/
noncomputable def sortR (l : List ℝ) : List ℝ := l.insertionSort (· ≤ ·)

/-- `np.mean(sorted[int(len*0.75):])`: mean of the top quarter of the sorted
values (slice from index `3n/4`, integer division). -/
noncomputable def loudMeanOf (l : List ℝ) : ℝ :=
  ((sortR l).drop (3 * l.length / 4)).sum / (((sortR l).drop (3 * l.length / 4)).length : ℝ)

/-- `(rms_db_smooth < energy_thresh) | (bw_smooth < bw_thresh)`, elementwise. -/
noncomputable def notPlaying (es bs : List ℝ) (et bt : ℝ) : List Bool :=
  List.zipWith (fun e b => decide (e < et) || decide (b < bt)) es bs

/-- The quiet-region scan of `detect_splits`: state is the current index and
`none`/`some start` for "not inside"/"inside a quiet run started at `start`";
a run is emitted when closed (or at end of input) if its duration
`(end - start) * fts` is at least `ms`. -/
noncomputable def quietScan (fts ms : ℝ) : List Bool → ℕ → Option ℕ → List (ℕ × ℕ)
  | [], _, none => []
  | [], i, some s => if ms ≤ ((i - s : ℕ) : ℝ) * fts then [(s, i)] else []
  | q :: rest, i, none =>
      if q then quietScan fts ms rest (i + 1) (some i) else quietScan fts ms rest (i + 1) none
  | q :: rest, i, some s =>
      if q then quietScan fts ms rest (i + 1) (some s)
      else (if ms ≤ ((i - s : ℕ) : ℝ) * fts then [(s, i)] else []) ++
        quietScan fts ms rest (i + 1) none

/-- The retained quiet regions of a flag sequence. -/
noncomputable def findQuietRegions (flags : List Bool) (fts ms : ℝ) : List (ℕ × ℕ) :=
  quietScan fts ms flags 0 none

/-- `split_samples = [((s + e) // 2) * hop_length for s, e in quiet_regions]`. -/
def splitSamples (regions : List (ℕ × ℕ)) (hop : ℕ) : List ℕ :=
  regions.map fun r => (r.1 + r.2) / 2 * hop

/-- `boundaries = [0] + split_samples + [total_samples]`. -/
def mkBoundaries (splits : List ℕ) (total : ℕ) : List ℕ := 0 :: splits ++ [total]

/-- One provisional segment per consecutive boundary pair. -/
noncomputable def mkSegments (bounds : List ℕ) (sr : ℕ) : List Segment :=
  (bounds.zip bounds.tail).enum.map fun p =>
    { index := p.1
      start_sec := (p.2.1 : ℝ) / (sr : ℝ)
      end_sec := (p.2.2 : ℝ) / (sr : ℝ)
      duration_sec := (p.2.2 : ℝ) / (sr : ℝ) - (p.2.1 : ℝ) / (sr : ℝ) }

/-- One step of the merge loop: if the output list is non-empty and the current
provisional segment is shorter than `msong`, extend the last accepted segment to
absorb it; otherwise append the segment unchanged. -/
noncomputable def mergeStep (msong : ℝ) (acc : List Segment) (seg : Segment) : List Segment :=
  match acc.getLast? with
  | none => acc ++ [seg]
  | some prev =>
      if seg.duration_sec < msong then
        acc.dropLast ++ [{ index := prev.index, start_sec := prev.start_sec,
                           end_sec := seg.end_sec,
                           duration_sec := seg.end_sec - prev.start_sec }]
      else acc ++ [seg]

/-- The merge loop of `detect_splits` (left fold over provisional segments). -/
noncomputable def mergePass (msong : ℝ) (segs : List Segment) : List Segment :=
  segs.foldl (mergeStep msong) []

/-- Final dense reassignment of `index` fields. -/
def reindex (l : List Segment) : List Segment :=
  l.enum.map fun p => { p.2 with index := p.1 }

/-- The values `detect_splits` computes beyond its return value: the adaptive
thresholds and supporting means (printed by the source), and the retained quiet
regions (also printed).  The function's return value is only `segments`. -/
structure SplitDiag where
  segments : List Segment
  loud_mean : ℝ
  energy_thresh : ℝ
  bw_loud_mean : ℝ
  bw_thresh : ℝ
  quiet_regions : List (ℕ × ℕ)

/-- The post-feature pipeline of `detect_splits`: smoothing, thresholds, flag
computation, quiet-region scan, split points, provisional segments, merge,
reindex. -/
noncomputable def detectCore (rmsDb bwRaw : List ℝ) (sr hop total : ℕ) (ms msong : ℝ) :
    SplitDiag :=
  { segments :=
      reindex (mergePass msong (mkSegments
        (mkBoundaries
          (splitSamples
            (findQuietRegions
              (notPlaying (smooth rmsDb (smoothFrames sr hop))
                (smooth bwRaw (smoothFrames sr hop))
                (loudMeanOf (smooth rmsDb (smoothFrames sr hop)) - 15)
                (loudMeanOf (smooth bwRaw (smoothFrames sr hop)) * (2 / 5)))
              ((hop : ℝ) / (sr : ℝ)) ms)
            hop)
          total)
        sr))
    loud_mean := loudMeanOf (smooth rmsDb (smoothFrames sr hop))
    energy_thresh := loudMeanOf (smooth rmsDb (smoothFrames sr hop)) - 15
    bw_loud_mean := loudMeanOf (smooth bwRaw (smoothFrames sr hop))
    bw_thresh := loudMeanOf (smooth bwRaw (smoothFrames sr hop)) * (2 / 5)
    quiet_regions :=
      findQuietRegions
        (notPlaying (smooth rmsDb (smoothFrames sr hop))
          (smooth bwRaw (smoothFrames sr hop))
          (loudMeanOf (smooth rmsDb (smoothFrames sr hop)) - 15)
          (loudMeanOf (smooth bwRaw (smoothFrames sr hop)) * (2 / 5)))
        ((hop : ℝ) / (sr : ℝ)) ms }

/-- `detect_splits` with its internally computed diagnostic values exposed. -/
noncomputable def detectSplitsDiag (audio : ℕ → ℝ) (total sr : ℕ) (ms msong : ℝ)
    (fl hop : ℕ) : SplitDiag :=
  detectCore
    (amplitudeToDb (computeRms audio fl hop (nFramesZ total fl hop).toNat))
    (computeSpectralBandwidth audio sr fl hop (nFramesZ total fl hop).toNat)
    sr hop total ms msong

/-- The return value of `detect_splits`: the merged segment list. -/
noncomputable def detectSplits (audio : ℕ → ℝ) (total sr : ℕ) (ms msong : ℝ)
    (fl hop : ℕ) : List Segment :=
  (detectSplitsDiag audio total sr ms msong fl hop).segments

/-- Failure modes of the pipeline.  The source contains no `InvalidInputError`
class; the two numpy `ValueError`s are what a short buffer actually produces
(`np.empty` with a negative size in `compute_rms`; `np.max` of an empty array in
`amplitude_to_db`).  `invalidInput` represents the error the specification
claims, which the code never raises. -/
inductive SplitError where
  | numpyNegativeDimensions
  | numpyZeroSizeReduction
  | invalidInput
deriving DecidableEq

/-- `detect_splits` with its failure behavior: a negative frame count makes
`np.empty(n_frames)` raise in `compute_rms`; a zero frame count makes `np.max`
of the empty RMS array raise in `amplitude_to_db`; otherwise the pipeline runs
to completion. -/
noncomputable def detectSplitsE (audio : ℕ → ℝ) (total sr : ℕ) (ms msong : ℝ)
    (fl hop : ℕ) : Except SplitError (List Segment) :=
  if nFramesZ total fl hop < 0 then .error .numpyNegativeDimensions
  else if nFramesZ total fl hop = 0 then .error .numpyZeroSizeReduction
  else .ok (detectSplits audio total sr ms msong fl hop)


/-- The spectral bandwidth shared by every frame whose windowed signal has a
single nonzero sample: the power spectrum is then uniform across bins, so the
bandwidth is the standard deviation of the bin frequencies, independent of the
sample's value. -/
noncomputable def uniformBw (sr fl : ℕ) : ℝ :=
  Real.sqrt ((∑ k in Finset.range (fl / 2 + 1),
      (rfftFreq fl sr k -
        (∑ j in Finset.range (fl / 2 + 1), rfftFreq fl sr j) / ((fl / 2 + 1 : ℕ) : ℝ)) ^ 2) /
    ((fl / 2 + 1 : ℕ) : ℝ))

/-! ### Concrete inputs used in counterexamples and witnesses -/

/-- The all-zero buffer. -/
noncomputable def zeroAudio : ℕ → ℝ := fun _ => 0

/-- A buffer with a single tiny spike (below the spectral power floor). -/
noncomputable def spikeAudio : ℕ → ℝ := fun t => if t = 5 then 1 / 10 ^ 16 else 0

/-- 12272 samples at 409 Hz: a silent first frame followed by three frames of
equal RMS (tiny spikes at samples 5000 and 9000, below the spectral power
floor).  The first frame is the only "not playing" frame, giving the retained
quiet region `[0, 1)` and hence the split sample `((0+1)/2)*2048 = 0`. -/
noncomputable def exC1 : ℕ → ℝ := fun t => if t = 5000 ∨ t = 9000 then 1 / 10 ^ 16 else 0

/-- 16384 samples at 24576 Hz: full-scale spikes at samples 5120 and 15360.
Frames 1, 2 and 6 are loud with identical RMS `1/64` and identical spectral
bandwidth `uniformBw`; the rest are silent. -/
noncomputable def exC2 : ℕ → ℝ := fun t => if t = 5120 ∨ t = 15360 then 1 else 0

/-- Equivalent recursion for the merge loop: `cur` is the last accepted segment,
still extensible; short segments are absorbed into it. -/
noncomputable def mergeRun (msong : ℝ) (cur : Segment) : List Segment → List Segment
  | [] => [cur]
  | seg :: rest =>
      if seg.duration_sec < msong then
        mergeRun msong ⟨cur.index, cur.start_sec, seg.end_sec,
          seg.end_sec - cur.start_sec⟩ rest
      else cur :: mergeRun msong seg rest

/-- End time of the last segment in a list (`d` for the empty list). -/
noncomputable def lastEnd (d : ℝ) : List Segment → ℝ
  | [] => d
  | [s] => s.end_sec
  | _ :: b :: rest => lastEnd d (b :: rest)

/-- Contiguity of consecutive segments. -/
def Contig (a b : Segment) : Prop := a.end_sec = b.start_sec

/-- The non-index fields of a segment. -/
def segFields (s : Segment) : ℝ × ℝ × ℝ := (s.start_sec, s.end_sec, s.duration_sec)

/-- The maximal contiguous runs of `true` flags (the spec's candidate quiet
regions, before the duration filter), as half-open frame intervals. -/
def trueRunsAux : List Bool → ℕ → Option ℕ → List (ℕ × ℕ)
  | [], _, none => []
  | [], i, some s => [(s, i)]
  | q :: rest, i, none =>
      if q then trueRunsAux rest (i + 1) (some i) else trueRunsAux rest (i + 1) none
  | q :: rest, i, some s =>
      if q then trueRunsAux rest (i + 1) (some s) else (s, i) :: trueRunsAux rest (i + 1) none

def trueRuns (flags : List Bool) : List (ℕ × ℕ) := trueRunsAux flags 0 none

/-- The merge step exactly as the specification words it: a provisional
segment is absorbed into the previously accepted segment (extending that
segment's `end_sec` and `duration_sec`, its `start_sec` unchanged) if and only
if the output list already has at least one accepted segment and the
provisional segment's duration is below `msong`; otherwise it is appended
unchanged.  (Spec-modelled definition, for comparison with `mergeStep`, which
is translated from the source.) -/
noncomputable def mergeStepSpec (msong : ℝ) (acc : List Segment) (seg : Segment) : List Segment :=
  if 1 ≤ acc.length ∧ seg.duration_sec < msong then
    acc.dropLast ++ [{ (acc.getLastD seg) with
      end_sec := seg.end_sec,
      duration_sec := seg.end_sec - (acc.getLastD seg).start_sec }]
  else acc ++ [seg]

/-- The merge pass as the specification words it: a single left-to-right scan. -/
noncomputable def mergePassSpec (msong : ℝ) (segs : List Segment) : List Segment :=
  segs.foldl (mergeStepSpec msong) []

/-- Number of kernel taps of the width-`w` averaging kernel that overlap valid
data at output position `i` of the centered (`same`) convolution of a
length-`n` signal. -/
def covZ (n w i : ℕ) : ℕ :=
  min ((w - 1) / 2 + i + 1) n - ((w - 1) / 2 + i + 1 - w)

end Splitter

namespace Splitter

theorem Segment.ext_iff' {a b : Segment} :
    a = b ↔ a.index = b.index ∧ a.start_sec = b.start_sec ∧ a.end_sec = b.end_sec ∧
      a.duration_sec = b.duration_sec := by
  cases a; cases b; simp [Segment.mk.injEq]


/-! ### Frame-level evaluation lemmas for concrete inputs -/

theorem frameRms_zero (audio : ℕ → ℝ) (fl start : ℕ)
    (h : ∀ t, t < fl → audio (start + t) = 0) : frameRms audio fl start = 0 := by
  unfold frameRms
  rw [Finset.sum_eq_zero, zero_div, Real.sqrt_zero]
  intro t ht
  rw [h t (Finset.mem_range.mp ht)]
  ring

theorem frameRms_single (audio : ℕ → ℝ) (fl start t0 : ℕ) (c : ℝ)
    (ht0 : t0 < fl) (hc : audio (start + t0) = c)
    (h : ∀ t, t < fl → t ≠ t0 → audio (start + t) = 0) :
    frameRms audio fl start = Real.sqrt (c ^ 2 / (fl : ℝ)) := by
  unfold frameRms
  congr 1
  rw [Finset.sum_eq_single t0]
  · rw [hc]
  · intro t ht htt0
    rw [h t (Finset.mem_range.mp ht) htt0]
    ring
  · intro ht
    exact absurd (Finset.mem_range.mpr ht0) ht

theorem frameTotalPower_zero (audio : ℕ → ℝ) (fl start : ℕ)
    (h : ∀ t, t < fl → audio (start + t) = 0) : frameTotalPower audio fl start = 0 := by
  unfold frameTotalPower
  apply Finset.sum_eq_zero
  intro k _
  unfold framePower rfftBin
  rw [Finset.sum_eq_zero]
  · simp
  · intro t ht
    simp [h t (Finset.mem_range.mp ht)]

theorem rfftBin_single (g : ℕ → ℝ) (len k t0 : ℕ) (ht0 : t0 < len)
    (h : ∀ t, t < len → t ≠ t0 → g t = 0) :
    rfftBin g len k =
      (g t0 : ℂ) *
        Complex.exp ((-(2 * Real.pi * (k : ℝ) * (t0 : ℝ) / (len : ℝ)) : ℝ) * Complex.I) := by
  unfold rfftBin
  rw [Finset.sum_eq_single t0]
  · intro t ht htt0
    rw [h t (Finset.mem_range.mp ht) htt0]
    simp
  · intro ht
    exact absurd (Finset.mem_range.mpr ht0) ht

theorem framePower_single (audio : ℕ → ℝ) (fl start k t0 : ℕ) (ht0 : t0 < fl)
    (h : ∀ t, t < fl → t ≠ t0 → audio (start + t) = 0) :
    framePower audio fl start k = (audio (start + t0) * hann fl t0) ^ 2 := by
  unfold framePower
  rw [rfftBin_single (fun t => audio (start + t) * hann fl t) fl k t0 ht0]
  · rw [map_mul, Complex.abs_exp_ofReal_mul_I, mul_one, Complex.abs_ofReal, sq_abs]
  · intro t ht htt0
    rw [h t ht htt0]
    ring

theorem frameTotalPower_single (audio : ℕ → ℝ) (fl start t0 : ℕ) (ht0 : t0 < fl)
    (h : ∀ t, t < fl → t ≠ t0 → audio (start + t) = 0) :
    frameTotalPower audio fl start =
      ((fl / 2 + 1 : ℕ) : ℝ) * (audio (start + t0) * hann fl t0) ^ 2 := by
  unfold frameTotalPower
  rw [Finset.sum_congr rfl fun k _ => framePower_single audio fl start k t0 ht0 h]
  rw [Finset.sum_const, Finset.card_range, nsmul_eq_mul]

theorem frameBandwidth_of_small (audio : ℕ → ℝ) (sr fl start : ℕ)
    (h : frameTotalPower audio fl start < 1 / 10 ^ 20) :
    frameBandwidth audio sr fl start = 0 := by
  unfold frameBandwidth
  rw [if_pos h]

theorem hann_abs_le_one (m t : ℕ) : |hann m t| ≤ 1 := by
  unfold hann
  rw [abs_le]
  constructor
  · nlinarith [Real.cos_le_one (2 * Real.pi * t / ((m - 1 : ℕ) : ℝ))]
  · nlinarith [Real.neg_one_le_cos (2 * Real.pi * t / ((m - 1 : ℕ) : ℝ))]

end Splitter

namespace Splitter

theorem frameBandwidth_single (audio : ℕ → ℝ) (sr fl start t0 : ℕ) (ht0 : t0 < fl)
    (h : ∀ t, t < fl → t ≠ t0 → audio (start + t) = 0)
    (hbig : ¬ frameTotalPower audio fl start < 1 / 10 ^ 20) :
    frameBandwidth audio sr fl start = uniformBw sr fl := by
  have htp := frameTotalPower_single audio fl start t0 ht0 h
  have hy2 : (audio (start + t0) * hann fl t0) ^ 2 ≠ 0 := by
    intro h0
    rw [htp, h0, mul_zero] at hbig
    exact hbig (by norm_num)
  have hpow : ∀ k, framePower audio fl start k = (audio (start + t0) * hann fl t0) ^ 2 :=
    fun k => framePower_single audio fl start k t0 ht0 h
  unfold frameBandwidth uniformBw
  rw [if_neg hbig]
  congr 1
  rw [htp]
  simp only [hpow]
  rw [← Finset.sum_mul, mul_div_mul_right _ _ hy2]
  rw [← Finset.sum_mul, mul_div_mul_right _ _ hy2]

theorem uniformBw_pos (sr fl : ℕ) (hsr : 0 < sr) (hfl : 2 ≤ fl) : 0 < uniformBw sr fl := by
  unfold uniformBw
  rw [Real.sqrt_pos]
  have hM : (0 : ℝ) < ((fl / 2 + 1 : ℕ) : ℝ) := by positivity
  apply div_pos _ hM
  have h1mem : 1 ∈ Finset.range (fl / 2 + 1) := by
    rw [Finset.mem_range]
    omega
  have h0mem : 0 ∈ Finset.range (fl / 2 + 1) := by
    rw [Finset.mem_range]
    omega
  have hflR : (0 : ℝ) < (fl : ℝ) := by
    have : (0 : ℕ) < fl := by omega
    exact_mod_cast this
  have hratio : (0 : ℝ) < (sr : ℝ) / (fl : ℝ) := div_pos (by exact_mod_cast hsr) hflR
  have hfreq : rfftFreq fl sr 0 ≠ rfftFreq fl sr 1 := by
    unfold rfftFreq
    push_cast
    rw [zero_mul, zero_div, one_mul]
    intro hEq
    rw [← hEq] at hratio
    exact lt_irrefl 0 hratio
  set c : ℝ := (∑ j in Finset.range (fl / 2 + 1), rfftFreq fl sr j) / ((fl / 2 + 1 : ℕ) : ℝ)
  rcases eq_or_ne (rfftFreq fl sr 0) c with h0 | h0
  · apply Finset.sum_pos' (fun k _ => sq_nonneg _) ⟨1, h1mem, ?_⟩
    have hne : rfftFreq fl sr 1 - c ≠ 0 := by
      rw [← h0]
      intro hEq
      apply hfreq
      linarith
    positivity
  · apply Finset.sum_pos' (fun k _ => sq_nonneg _) ⟨0, h0mem, ?_⟩
    have hne : rfftFreq fl sr 0 - c ≠ 0 := sub_ne_zero.mpr h0
    positivity

theorem hann_quarter_1024 : (1 : ℝ) / 4 ≤ hann 4096 1024 := by
  have hpi := Real.pi_pos
  have hcast : ((4096 - 1 : ℕ) : ℝ) = 4095 := by norm_num
  have harg : 2 * Real.pi * (1024 : ℕ) / ((4096 - 1 : ℕ) : ℝ) = 2048 * Real.pi / 4095 := by
    rw [hcast]
    push_cast
    ring
  have hcos : Real.cos (2048 * Real.pi / 4095) ≤ 1 / 2 := by
    rw [← Real.cos_pi_div_three]
    apply Real.cos_le_cos_of_nonneg_of_le_pi
    · positivity
    · nlinarith
    · nlinarith
  unfold hann
  rw [harg]
  linarith

theorem hann_quarter_3072 : (1 : ℝ) / 4 ≤ hann 4096 3072 := by
  have hpi := Real.pi_pos
  have hcast : ((4096 - 1 : ℕ) : ℝ) = 4095 := by norm_num
  have harg : 2 * Real.pi * (3072 : ℕ) / ((4096 - 1 : ℕ) : ℝ)
      = 2 * Real.pi - 2046 * Real.pi / 4095 := by
    rw [hcast]
    push_cast
    ring
  have hcos : Real.cos (2 * Real.pi - 2046 * Real.pi / 4095) ≤ 1 / 2 := by
    rw [Real.cos_two_pi_sub]
    rw [← Real.cos_pi_div_three]
    apply Real.cos_le_cos_of_nonneg_of_le_pi
    · positivity
    · nlinarith
    · nlinarith
  unfold hann
  rw [harg]
  linarith

theorem logb_ratio_floor : Real.logb 10 (1 / 10 ^ 10 : ℝ) = -10 := by
  rw [one_div, Real.logb_inv, show ((10 : ℝ) ^ 10) = (10 : ℝ) ^ (10 : ℕ) from rfl,
    Real.logb_pow, Real.logb_self_eq_one (by norm_num)]
  norm_num

end Splitter

namespace Splitter



theorem nFrames_4096 : (nFramesZ 4096 4096 2048).toNat = 1 := by decide

theorem computeRms_zeroAudio : computeRms zeroAudio 4096 2048 1 = [0] := by
  unfold computeRms
  simp only [List.range_succ, List.range_zero, List.nil_append, List.map_cons, List.map_nil]
  rw [frameRms_zero]
  intro t _
  rfl

theorem computeBw_zeroAudio : computeSpectralBandwidth zeroAudio 2048 4096 2048 1 = [0] := by
  unfold computeSpectralBandwidth
  simp only [List.range_succ, List.range_zero, List.nil_append, List.map_cons, List.map_nil]
  rw [frameBandwidth_of_small]
  rw [frameTotalPower_zero]
  · norm_num
  · intro t _
    rfl

theorem db_zero_single : amplitudeToDb [0] = [-80] := by
  unfold amplitudeToDb npMax
  norm_num

theorem computeRms_spikeAudio :
    computeRms spikeAudio 4096 2048 1 = [1 / 10 ^ 16 / 64] := by
  unfold computeRms
  simp only [List.range_succ, List.range_zero, List.nil_append, List.map_cons, List.map_nil]
  rw [frameRms_single spikeAudio 4096 0 5 (1 / 10 ^ 16) (by norm_num) (by norm_num [spikeAudio])]
  · rw [show (1 / 10 ^ 16 : ℝ) ^ 2 / (4096 : ℕ) = (1 / 10 ^ 16 / 64) ^ 2 by push_cast; ring,
      Real.sqrt_sq (by positivity)]
  · intro t _ ht5
    simp only [spikeAudio, zero_add]
    rw [if_neg ht5]

theorem computeBw_spikeAudio :
    computeSpectralBandwidth spikeAudio 2048 4096 2048 1 = [0] := by
  unfold computeSpectralBandwidth
  simp only [List.range_succ, List.range_zero, List.nil_append, List.map_cons, List.map_nil]
  rw [frameBandwidth_of_small]
  rw [frameTotalPower_single spikeAudio 4096 0 5 (by norm_num)]
  · have h1 : |spikeAudio (0 + 5) * hann 4096 5| ≤ 1 / 10 ^ 16 := by
      rw [abs_mul]
      have hs : |spikeAudio (0 + 5)| = 1 / 10 ^ 16 := by
        norm_num [spikeAudio]
      rw [hs]
      nlinarith [hann_abs_le_one 4096 5, abs_nonneg (hann 4096 5)]
    have h2 : (spikeAudio (0 + 5) * hann 4096 5) ^ 2 ≤ (1 / 10 ^ 16) ^ 2 := by
      rw [← sq_abs]
      have := abs_nonneg (spikeAudio (0 + 5) * hann 4096 5)
      nlinarith
    have h3 : ((4096 / 2 + 1 : ℕ) : ℝ) = 2049 := by norm_num
    rw [h3]
    nlinarith
  · intro t _ ht5
    simp only [spikeAudio, zero_add]
    rw [if_neg ht5]

theorem db_spike_single : amplitudeToDb [1 / 10 ^ 16 / 64] = [0] := by
  unfold amplitudeToDb npMax
  rw [if_neg (by norm_num)]
  simp only [List.map_cons, List.map_nil, List.foldl_nil]
  rw [div_self (by norm_num), max_eq_left (by norm_num), Real.logb_one]
  norm_num

end Splitter

namespace Splitter

/-! ### Scaling lemmas: the pipeline on a positively scaled bandwidth sequence -/

theorem getD_map_mul (c : ℝ) (l : List ℝ) (j : ℕ) :
    (l.map (fun x => c * x)).getD j 0 = c * l.getD j 0 := by
  induction l generalizing j with
  | nil => simp
  | cons a t ih =>
    cases j with
    | zero => simp
    | succ m => simpa using ih m

theorem convolveFull_smul (c : ℝ) (l : List ℝ) (w : ℕ) :
    convolveFull (l.map (fun x => c * x)) w = (convolveFull l w).map (fun x => c * x) := by
  unfold convolveFull
  rw [List.map_map, List.length_map]
  apply List.map_congr_left
  intro k _
  simp only [Function.comp_apply]
  have hsum : ∀ j ∈ Finset.range l.length,
      (if j ≤ k ∧ k < j + w then (l.map fun x => c * x).getD j 0 else 0)
        = c * if j ≤ k ∧ k < j + w then l.getD j 0 else 0 := by
    intro j _
    rw [getD_map_mul, mul_ite, mul_zero]
  rw [Finset.sum_congr rfl hsum, ← Finset.mul_sum, mul_div_assoc]

theorem convolveSame_smul (c : ℝ) (l : List ℝ) (w : ℕ) :
    convolveSame (l.map (fun x => c * x)) w = (convolveSame l w).map (fun x => c * x) := by
  unfold convolveSame
  rw [convolveFull_smul, List.length_map]
  simp [List.map_take, List.map_drop]

theorem smooth_smul (c : ℝ) (l : List ℝ) (w : ℕ) :
    smooth (l.map (fun x => c * x)) w = (smooth l w).map (fun x => c * x) := by
  unfold smooth
  by_cases h : w ≤ 1
  · rw [if_pos h, if_pos h]
  · rw [if_neg h, if_neg h, convolveSame_smul]

theorem orderedInsert_smul (c : ℝ) (hc : 0 < c) (x : ℝ) (l : List ℝ) :
    List.orderedInsert (· ≤ ·) (c * x) (l.map (fun y => c * y))
      = (List.orderedInsert (· ≤ ·) x l).map (fun y => c * y) := by
  induction l with
  | nil => simp [List.orderedInsert]
  | cons a t ih =>
    simp only [List.orderedInsert, List.map_cons]
    by_cases hax : x ≤ a
    · rw [if_pos ((mul_le_mul_left hc).mpr hax), if_pos hax]
      simp
    · rw [if_neg (fun hcc => hax ((mul_le_mul_left hc).mp hcc)), if_neg hax, List.map_cons, ih]

theorem insertionSort_smul (c : ℝ) (hc : 0 < c) (l : List ℝ) :
    List.insertionSort (· ≤ ·) (l.map (fun y => c * y))
      = (List.insertionSort (· ≤ ·) l).map (fun y => c * y) := by
  induction l with
  | nil => simp [List.insertionSort]
  | cons a t ih =>
    simp only [List.insertionSort, List.map_cons]
    rw [ih, orderedInsert_smul c hc]

theorem sum_map_mul (c : ℝ) (l : List ℝ) : (l.map (fun y => c * y)).sum = c * l.sum := by
  induction l with
  | nil => simp
  | cons a t ih =>
    simp [ih]
    ring

theorem loudMeanOf_smul (c : ℝ) (hc : 0 < c) (l : List ℝ) :
    loudMeanOf (l.map (fun y => c * y)) = c * loudMeanOf l := by
  unfold loudMeanOf sortR
  rw [insertionSort_smul c hc, List.length_map, ← List.map_drop, sum_map_mul, List.length_map,
    mul_div_assoc]

theorem notPlaying_smul (c : ℝ) (hc : 0 < c) (es bs : List ℝ) (et bt : ℝ) :
    notPlaying es (bs.map (fun y => c * y)) et (c * bt) = notPlaying es bs et bt := by
  unfold notPlaying
  induction es generalizing bs with
  | nil => simp
  | cons e es ih =>
    cases bs with
    | nil => simp
    | cons b bs =>
      simp only [List.map_cons, List.zipWith_cons_cons]
      rw [ih]
      congr 1
      congr 1
      exact decide_eq_decide.mpr (mul_lt_mul_left hc)

end Splitter

namespace Splitter

/-! ### Frame helpers at the default frame length 4096 -/

theorem frameRms_single_4096 (audio : ℕ → ℝ) (start t0 : ℕ) (c : ℝ) (hc0 : 0 ≤ c)
    (ht0 : t0 < 4096) (hc : audio (start + t0) = c)
    (h : ∀ t, t < 4096 → t ≠ t0 → audio (start + t) = 0) :
    frameRms audio 4096 start = c / 64 := by
  rw [frameRms_single audio 4096 start t0 c ht0 hc h,
    show c ^ 2 / ((4096 : ℕ) : ℝ) = (c / 64) ^ 2 by push_cast; ring,
    Real.sqrt_sq (by positivity)]

theorem frameBandwidth_zeroFrame (audio : ℕ → ℝ) (sr fl start : ℕ)
    (h : ∀ t, t < fl → audio (start + t) = 0) : frameBandwidth audio sr fl start = 0 := by
  apply frameBandwidth_of_small
  rw [frameTotalPower_zero audio fl start h]
  norm_num

theorem frameBandwidth_tinySpike (audio : ℕ → ℝ) (sr start t0 : ℕ) (c : ℝ)
    (ht0 : t0 < 4096) (hc : audio (start + t0) = c) (hcs : |c| ≤ 1 / 10 ^ 16)
    (h : ∀ t, t < 4096 → t ≠ t0 → audio (start + t) = 0) :
    frameBandwidth audio sr 4096 start = 0 := by
  apply frameBandwidth_of_small
  rw [frameTotalPower_single audio 4096 start t0 ht0 h]
  have h1 := hann_abs_le_one 4096 t0
  have h2 := abs_nonneg (hann 4096 t0)
  have h3 := abs_nonneg c
  have hsq : (audio (start + t0) * hann 4096 t0) ^ 2 ≤ (1 / 10 ^ 16) ^ 2 := by
    rw [← sq_abs, abs_mul, hc]
    have hprod : |c| * |hann 4096 t0| ≤ 1 / 10 ^ 16 := by nlinarith
    have hprod0 : 0 ≤ |c| * |hann 4096 t0| := mul_nonneg h3 h2
    nlinarith
  have hM : ((4096 / 2 + 1 : ℕ) : ℝ) = 2049 := by norm_num
  rw [hM]
  nlinarith

theorem frameBandwidth_bigSpike (audio : ℕ → ℝ) (sr start t0 : ℕ)
    (ht0 : t0 < 4096) (hc : audio (start + t0) = 1) (hh : 1 / 4 ≤ hann 4096 t0)
    (h : ∀ t, t < 4096 → t ≠ t0 → audio (start + t) = 0) :
    frameBandwidth audio sr 4096 start = uniformBw sr 4096 := by
  apply frameBandwidth_single audio sr 4096 start t0 ht0 h
  rw [frameTotalPower_single audio 4096 start t0 ht0 h]
  have hM : ((4096 / 2 + 1 : ℕ) : ℝ) = 2049 := by norm_num
  rw [hM, hc, one_mul]
  intro hlt
  nlinarith

/-! ### The two counterexample inputs -/





theorem rms_exC1 :
    computeRms exC1 4096 2048 4 = [0, 1 / 10 ^ 16 / 64, 1 / 10 ^ 16 / 64, 1 / 10 ^ 16 / 64] := by
  have h0 : frameRms exC1 4096 0 = 0 := by
    apply frameRms_zero
    intro t ht
    simp only [exC1, zero_add]
    rw [if_neg (show ¬(t = 5000 ∨ t = 9000) by omega)]
  have h1 : frameRms exC1 4096 2048 = 1 / 10 ^ 16 / 64 := by
    apply frameRms_single_4096 exC1 2048 2952 (1 / 10 ^ 16) (by norm_num) (by norm_num)
      (by norm_num [exC1])
    intro t ht hne
    simp only [exC1]
    rw [if_neg (show ¬(2048 + t = 5000 ∨ 2048 + t = 9000) by omega)]
  have h2 : frameRms exC1 4096 4096 = 1 / 10 ^ 16 / 64 := by
    apply frameRms_single_4096 exC1 4096 904 (1 / 10 ^ 16) (by norm_num) (by norm_num)
      (by norm_num [exC1])
    intro t ht hne
    simp only [exC1]
    rw [if_neg (show ¬(4096 + t = 5000 ∨ 4096 + t = 9000) by omega)]
  have h3 : frameRms exC1 4096 6144 = 1 / 10 ^ 16 / 64 := by
    apply frameRms_single_4096 exC1 6144 2856 (1 / 10 ^ 16) (by norm_num) (by norm_num)
      (by norm_num [exC1])
    intro t ht hne
    simp only [exC1]
    rw [if_neg (show ¬(6144 + t = 5000 ∨ 6144 + t = 9000) by omega)]
  unfold computeRms
  norm_num [List.range_succ, h0, h1, h2, h3]

theorem bw_exC1 :
    computeSpectralBandwidth exC1 409 4096 2048 4 = [0, 0, 0, 0] := by
  have h0 : frameBandwidth exC1 409 4096 0 = 0 := by
    apply frameBandwidth_zeroFrame
    intro t ht
    simp only [exC1, zero_add]
    rw [if_neg (show ¬(t = 5000 ∨ t = 9000) by omega)]
  have h1 : frameBandwidth exC1 409 4096 2048 = 0 := by
    apply frameBandwidth_tinySpike exC1 409 2048 2952 (1 / 10 ^ 16) (by norm_num)
      (by norm_num [exC1]) (by rw [abs_of_nonneg (by norm_num)])
    intro t ht hne
    simp only [exC1]
    rw [if_neg (show ¬(2048 + t = 5000 ∨ 2048 + t = 9000) by omega)]
  have h2 : frameBandwidth exC1 409 4096 4096 = 0 := by
    apply frameBandwidth_tinySpike exC1 409 4096 904 (1 / 10 ^ 16) (by norm_num)
      (by norm_num [exC1]) (by rw [abs_of_nonneg (by norm_num)])
    intro t ht hne
    simp only [exC1]
    rw [if_neg (show ¬(4096 + t = 5000 ∨ 4096 + t = 9000) by omega)]
  have h3 : frameBandwidth exC1 409 4096 6144 = 0 := by
    apply frameBandwidth_tinySpike exC1 409 6144 2856 (1 / 10 ^ 16) (by norm_num)
      (by norm_num [exC1]) (by rw [abs_of_nonneg (by norm_num)])
    intro t ht hne
    simp only [exC1]
    rw [if_neg (show ¬(6144 + t = 5000 ∨ 6144 + t = 9000) by omega)]
  unfold computeSpectralBandwidth
  norm_num [List.range_succ, h0, h1, h2, h3]

end Splitter

namespace Splitter

theorem rms_exC2 :
    computeRms exC2 4096 2048 7 = [0, 1 / 64, 1 / 64, 0, 0, 0, 1 / 64] := by
  have hz : ∀ start : ℕ, (∀ t, t < 4096 → ¬(start + t = 5120 ∨ start + t = 15360)) →
      frameRms exC2 4096 start = 0 := by
    intro start hs
    apply frameRms_zero
    intro t ht
    simp only [exC2]
    rw [if_neg (hs t ht)]
  have h0 : frameRms exC2 4096 0 = 0 := hz 0 (by omega)
  have h3 : frameRms exC2 4096 6144 = 0 := hz 6144 (by omega)
  have h4 : frameRms exC2 4096 8192 = 0 := hz 8192 (by omega)
  have h5 : frameRms exC2 4096 10240 = 0 := hz 10240 (by omega)
  have hs : ∀ start t0 : ℕ, t0 < 4096 → start + t0 = 5120 ∨ start + t0 = 15360 →
      (∀ t, t < 4096 → t ≠ t0 → ¬(start + t = 5120 ∨ start + t = 15360)) →
      frameRms exC2 4096 start = 1 / 64 := by
    intro start t0 ht0 heq hne
    have : frameRms exC2 4096 start = 1 / 64 := by
      apply frameRms_single_4096 exC2 start t0 1 (by norm_num) ht0
        (by simp only [exC2]; rw [if_pos heq])
      intro t ht htn
      simp only [exC2]
      rw [if_neg (hne t ht htn)]
    simpa using this
  have h1 : frameRms exC2 4096 2048 = 1 / 64 := hs 2048 3072 (by norm_num) (by omega) (by omega)
  have h2 : frameRms exC2 4096 4096 = 1 / 64 := hs 4096 1024 (by norm_num) (by omega) (by omega)
  have h6 : frameRms exC2 4096 12288 = 1 / 64 := hs 12288 3072 (by norm_num) (by omega) (by omega)
  unfold computeRms
  norm_num [List.range_succ, h0, h1, h2, h3, h4, h5, h6]

theorem bw_exC2 :
    computeSpectralBandwidth exC2 24576 4096 2048 7 =
      ([0, 1, 1, 0, 0, 0, 1] : List ℝ).map (fun x => uniformBw 24576 4096 * x) := by
  have hz : ∀ start : ℕ, (∀ t, t < 4096 → ¬(start + t = 5120 ∨ start + t = 15360)) →
      frameBandwidth exC2 24576 4096 start = 0 := by
    intro start hns
    apply frameBandwidth_zeroFrame
    intro t ht
    simp only [exC2]
    rw [if_neg (hns t ht)]
  have h0 : frameBandwidth exC2 24576 4096 0 = 0 := hz 0 (by omega)
  have h3 : frameBandwidth exC2 24576 4096 6144 = 0 := hz 6144 (by omega)
  have h4 : frameBandwidth exC2 24576 4096 8192 = 0 := hz 8192 (by omega)
  have h5 : frameBandwidth exC2 24576 4096 10240 = 0 := hz 10240 (by omega)
  have hbig : ∀ start t0 : ℕ, t0 < 4096 → start + t0 = 5120 ∨ start + t0 = 15360 →
      1 / 4 ≤ hann 4096 t0 →
      (∀ t, t < 4096 → t ≠ t0 → ¬(start + t = 5120 ∨ start + t = 15360)) →
      frameBandwidth exC2 24576 4096 start = uniformBw 24576 4096 := by
    intro start t0 ht0 heq hh hne
    apply frameBandwidth_bigSpike exC2 24576 start t0 ht0
      (by simp only [exC2]; rw [if_pos heq]) hh
    intro t ht htn
    simp only [exC2]
    rw [if_neg (hne t ht htn)]
  have h1 : frameBandwidth exC2 24576 4096 2048 = uniformBw 24576 4096 :=
    hbig 2048 3072 (by norm_num) (by omega) hann_quarter_3072 (by omega)
  have h2 : frameBandwidth exC2 24576 4096 4096 = uniformBw 24576 4096 :=
    hbig 4096 1024 (by norm_num) (by omega) hann_quarter_1024 (by omega)
  have h6 : frameBandwidth exC2 24576 4096 12288 = uniformBw 24576 4096 :=
    hbig 12288 3072 (by norm_num) (by omega) hann_quarter_3072 (by omega)
  unfold computeSpectralBandwidth
  norm_num [List.range_succ, h0, h1, h2, h3, h4, h5, h6]

theorem db_exC1 :
    amplitudeToDb [0, 1 / 10 ^ 16 / 64, 1 / 10 ^ 16 / 64, 1 / 10 ^ 16 / 64]
      = [-200, 0, 0, 0] := by
  have hq : (1 / 10 ^ 16 / 64 : ℝ) ≠ 0 := by norm_num
  have hmax : npMax [0, 1 / 10 ^ 16 / 64, 1 / 10 ^ 16 / 64, 1 / 10 ^ 16 / 64]
      = 1 / 10 ^ 16 / 64 := by
    unfold npMax
    norm_num [List.foldl]
  unfold amplitudeToDb
  rw [hmax, if_neg hq]
  simp only [List.map_cons, List.map_nil]
  rw [zero_div, div_self hq, max_eq_left (by norm_num : (1 / 10 ^ 10 : ℝ) ≤ 1),
    Real.logb_one, mul_zero, max_eq_right (by norm_num : (0 : ℝ) ≤ 1 / 10 ^ 10),
    logb_ratio_floor]
  norm_num

theorem db_exC2 :
    amplitudeToDb [0, 1 / 64, 1 / 64, 0, 0, 0, 1 / 64]
      = [-200, 0, 0, -200, -200, -200, 0] := by
  have hq : (1 / 64 : ℝ) ≠ 0 := by norm_num
  have hmax : npMax [0, 1 / 64, 1 / 64, 0, 0, 0, 1 / 64] = 1 / 64 := by
    unfold npMax
    norm_num [List.foldl]
  unfold amplitudeToDb
  rw [hmax, if_neg hq]
  simp only [List.map_cons, List.map_nil]
  rw [zero_div, div_self hq, max_eq_left (by norm_num : (1 / 10 ^ 10 : ℝ) ≤ 1),
    Real.logb_one, mul_zero, max_eq_right (by norm_num : (0 : ℝ) ≤ 1 / 10 ^ 10),
    logb_ratio_floor]
  norm_num

end Splitter

namespace Splitter

set_option maxHeartbeats 4000000

/-! ### End-to-end evaluations of the pipeline on the concrete inputs -/

theorem coreEval_zero :
    detectCore [-80] [0] 2048 2048 4096 5 30 =
      { segments := [⟨0, 0, 2, 2⟩], loud_mean := -80, energy_thresh := -95,
        bw_loud_mean := 0, bw_thresh := 0, quiet_regions := [] } := by
  unfold detectCore
  norm_num [smoothFrames, smooth, loudMeanOf, sortR, List.insertionSort, notPlaying,
    findQuietRegions, quietScan, splitSamples, mkBoundaries, mkSegments, mergePass, mergeStep,
    reindex, List.enum, List.enumFrom, SplitDiag.mk.injEq, Segment.mk.injEq]

theorem coreEval_spike :
    detectCore [0] [0] 2048 2048 4096 5 30 =
      { segments := [⟨0, 0, 2, 2⟩], loud_mean := 0, energy_thresh := -15,
        bw_loud_mean := 0, bw_thresh := 0, quiet_regions := [] } := by
  unfold detectCore
  norm_num [smoothFrames, smooth, loudMeanOf, sortR, List.insertionSort, notPlaying,
    findQuietRegions, quietScan, splitSamples, mkBoundaries, mkSegments, mergePass, mergeStep,
    reindex, List.enum, List.enumFrom, SplitDiag.mk.injEq, Segment.mk.injEq]

theorem coreEval_exC1 :
    (detectCore [-200, 0, 0, 0] [0, 0, 0, 0] 409 2048 12272 5 30).segments =
      [⟨0, 0, 0, 0⟩, ⟨1, 0, 12272 / 409, 12272 / 409⟩] := by
  unfold detectCore
  norm_num [smoothFrames, smooth, loudMeanOf, sortR, List.insertionSort, List.orderedInsert,
    notPlaying, findQuietRegions, quietScan, splitSamples, mkBoundaries, mkSegments, mergePass,
    mergeStep, reindex, List.enum, List.enumFrom, Segment.mk.injEq]

theorem coreEval_exC2 :
    (detectCore [-200, 0, 0, -200, -200, -200, 0]
        (([0, 1, 1, 0, 0, 0, 1] : List ℝ).map (fun x => uniformBw 24576 4096 * x))
        24576 2048 16384 (1 / 12) (1 / 2)).segments =
      [⟨0, 0, 5 / 12, 5 / 12⟩, ⟨1, 5 / 12, 2 / 3, 1 / 4⟩] := by
  have hV : 0 < uniformBw 24576 4096 := uniformBw_pos _ _ (by norm_num) (by norm_num)
  unfold detectCore
  simp only [smooth_smul, loudMeanOf_smul _ hV, mul_assoc]
  rw [notPlaying_smul _ hV]
  norm_num [smoothFrames, smooth, convolveSame, convolveFull, loudMeanOf, sortR,
    List.insertionSort, List.orderedInsert, notPlaying, findQuietRegions, quietScan,
    splitSamples, mkBoundaries, mkSegments, mergePass, mergeStep, reindex, List.enum,
    List.enumFrom, List.getD, List.getD_cons_zero, List.getD_cons_succ, Segment.mk.injEq,
    Finset.sum_range_succ]

theorem nFrames_exC1 : (nFramesZ 12272 4096 2048).toNat = 4 := by decide

theorem nFrames_exC2 : (nFramesZ 16384 4096 2048).toNat = 7 := by decide

theorem diagEval_zero :
    detectSplitsDiag zeroAudio 4096 2048 5 30 4096 2048 =
      { segments := [⟨0, 0, 2, 2⟩], loud_mean := -80, energy_thresh := -95,
        bw_loud_mean := 0, bw_thresh := 0, quiet_regions := [] } := by
  unfold detectSplitsDiag
  rw [nFrames_4096, computeRms_zeroAudio, db_zero_single, computeBw_zeroAudio]
  exact coreEval_zero

theorem diagEval_spike :
    detectSplitsDiag spikeAudio 4096 2048 5 30 4096 2048 =
      { segments := [⟨0, 0, 2, 2⟩], loud_mean := 0, energy_thresh := -15,
        bw_loud_mean := 0, bw_thresh := 0, quiet_regions := [] } := by
  unfold detectSplitsDiag
  rw [nFrames_4096, computeRms_spikeAudio, db_spike_single, computeBw_spikeAudio]
  exact coreEval_spike

theorem detectEval_exC1 :
    detectSplits exC1 12272 409 5 30 4096 2048 =
      [⟨0, 0, 0, 0⟩, ⟨1, 0, 12272 / 409, 12272 / 409⟩] := by
  unfold detectSplits detectSplitsDiag
  rw [nFrames_exC1, rms_exC1, db_exC1, bw_exC1]
  exact coreEval_exC1

theorem detectEval_exC2 :
    detectSplits exC2 16384 24576 (1 / 12) (1 / 2) 4096 2048 =
      [⟨0, 0, 5 / 12, 5 / 12⟩, ⟨1, 5 / 12, 2 / 3, 1 / 4⟩] := by
  unfold detectSplits detectSplitsDiag
  rw [nFrames_exC2, rms_exC2, db_exC2, bw_exC2]
  exact coreEval_exC2

end Splitter

namespace Splitter

/-! ### Merge pass: recursive reformulation and invariants -/



theorem mergeStep_concat (msong : ℝ) (acc : List Segment) (cur seg : Segment) :
    mergeStep msong (acc ++ [cur]) seg =
      if seg.duration_sec < msong then
        acc ++ [⟨cur.index, cur.start_sec, seg.end_sec, seg.end_sec - cur.start_sec⟩]
      else (acc ++ [cur]) ++ [seg] := by
  simp only [mergeStep, List.getLast?_concat, List.dropLast_concat]

theorem mergeRun_cons (msong : ℝ) (cur seg : Segment) (rest : List Segment) :
    mergeRun msong cur (seg :: rest) =
      if seg.duration_sec < msong then
        mergeRun msong ⟨cur.index, cur.start_sec, seg.end_sec, seg.end_sec - cur.start_sec⟩ rest
      else cur :: mergeRun msong seg rest := rfl

theorem foldl_mergeStep_concat (msong : ℝ) :
    ∀ (segs acc : List Segment) (cur : Segment),
      List.foldl (mergeStep msong) (acc ++ [cur]) segs = acc ++ mergeRun msong cur segs := by
  intro segs
  induction segs with
  | nil =>
    intro acc cur
    rfl
  | cons seg rest ih =>
    intro acc cur
    rw [List.foldl_cons, mergeStep_concat, mergeRun_cons]
    by_cases hd : seg.duration_sec < msong
    · rw [if_pos hd, if_pos hd, ih]
    · rw [if_neg hd, if_neg hd, ih, List.append_assoc]
      rfl

theorem mergePass_cons (msong : ℝ) (x : Segment) (segs : List Segment) :
    mergePass msong (x :: segs) = mergeRun msong x segs := by
  unfold mergePass
  rw [List.foldl_cons]
  have h0 : mergeStep msong [] x = [] ++ [x] := by
    unfold mergeStep
    rfl
  rw [h0, foldl_mergeStep_concat, List.nil_append]

theorem mergeRun_ne_nil (msong : ℝ) (cur : Segment) (segs : List Segment) :
    mergeRun msong cur segs ≠ [] := by
  induction segs generalizing cur with
  | nil => simp [mergeRun]
  | cons seg rest ih =>
    rw [mergeRun_cons]
    by_cases hd : seg.duration_sec < msong
    · rw [if_pos hd]
      exact ih _
    · rw [if_neg hd]
      simp

theorem mergeRun_head (msong : ℝ) (cur : Segment) (segs : List Segment) :
    ∃ h rest, mergeRun msong cur segs = h :: rest ∧ h.start_sec = cur.start_sec ∧
      h.index = cur.index := by
  induction segs generalizing cur with
  | nil => exact ⟨cur, [], rfl, rfl, rfl⟩
  | cons seg rest ih =>
    rw [mergeRun_cons]
    by_cases hd : seg.duration_sec < msong
    · rw [if_pos hd]
      exact ih _
    · rw [if_neg hd]
      exact ⟨cur, mergeRun msong seg rest, rfl, rfl, rfl⟩



theorem lastEnd_cons_cons (d : ℝ) (a b : Segment) (l : List Segment) :
    lastEnd d (a :: b :: l) = lastEnd d (b :: l) := rfl

theorem lastEnd_cons_of_ne_nil (d : ℝ) (a : Segment) (l : List Segment) (h : l ≠ []) :
    lastEnd d (a :: l) = lastEnd d l := by
  cases l with
  | nil => exact absurd rfl h
  | cons b rest => rfl

theorem mergeRun_lastEnd (msong : ℝ) (d : ℝ) (cur : Segment) (segs : List Segment) :
    lastEnd d (mergeRun msong cur segs) = lastEnd d (cur :: segs) := by
  induction segs generalizing cur with
  | nil => rfl
  | cons seg rest ih =>
    rw [mergeRun_cons, lastEnd_cons_cons]
    by_cases hd : seg.duration_sec < msong
    · rw [if_pos hd, ih]
      cases rest with
      | nil => rfl
      | cons r rs => rw [lastEnd_cons_cons, lastEnd_cons_cons]
    · rw [if_neg hd, lastEnd_cons_of_ne_nil d _ _ (mergeRun_ne_nil msong seg rest), ih]

theorem mergeRun_durations (msong : ℝ) (cur : Segment) (segs : List Segment)
    (hcur : cur.duration_sec = cur.end_sec - cur.start_sec)
    (hsegs : ∀ s ∈ segs, s.duration_sec = s.end_sec - s.start_sec) :
    ∀ s ∈ mergeRun msong cur segs, s.duration_sec = s.end_sec - s.start_sec := by
  induction segs generalizing cur with
  | nil =>
    intro s hs
    rw [List.mem_singleton.mp hs]
    exact hcur
  | cons seg rest ih =>
    intro s hs
    unfold mergeRun at hs
    by_cases hd : seg.duration_sec < msong
    · rw [if_pos hd] at hs
      exact ih _ (by rfl) (fun t ht => hsegs t (by simp [ht])) s hs
    · rw [if_neg hd] at hs
      rcases List.mem_cons.mp hs with h | h
      · rw [h]
        exact hcur
      · exact ih seg (hsegs seg (by simp)) (fun t ht => hsegs t (by simp [ht])) s h

end Splitter

namespace Splitter



theorem chain'_replace_head {a b : Segment} {l : List Segment}
    (hab : a.end_sec = b.end_sec) (h : List.Chain' Contig (b :: l)) :
    List.Chain' Contig (a :: l) := by
  cases l with
  | nil => simp
  | cons c rest =>
    rw [List.chain'_cons] at h ⊢
    exact ⟨by rw [Contig, hab]; exact h.1, h.2⟩

theorem mergeRun_all_ge (msong : ℝ) (cur : Segment) (segs : List Segment)
    (hcur : msong ≤ cur.duration_sec)
    (hcurd : cur.duration_sec = cur.end_sec - cur.start_sec)
    (hsegs : ∀ s ∈ segs, s.duration_sec = s.end_sec - s.start_sec)
    (hpos : ∀ s ∈ segs, 0 ≤ s.duration_sec)
    (hchain : List.Chain' Contig (cur :: segs)) :
    ∀ s ∈ mergeRun msong cur segs, msong ≤ s.duration_sec := by
  induction segs generalizing cur with
  | nil =>
    intro s hs
    rw [List.mem_singleton.mp hs]
    exact hcur
  | cons seg rest ih =>
    rw [List.chain'_cons] at hchain
    rw [mergeRun_cons]
    by_cases hd : seg.duration_sec < msong
    · rw [if_pos hd]
      intro s hs
      refine ih ⟨cur.index, cur.start_sec, seg.end_sec, seg.end_sec - cur.start_sec⟩
        ?_ rfl (fun t ht => hsegs t (by simp [ht])) (fun t ht => hpos t (by simp [ht]))
        ?_ s hs
      · have h1 := hsegs seg (by simp)
        have h2 := hpos seg (by simp)
        have h3 : seg.start_sec = cur.end_sec := (hchain.1).symm
        simp only
        rw [show seg.end_sec - cur.start_sec
            = (seg.end_sec - seg.start_sec) + (cur.end_sec - cur.start_sec) by
          rw [h3]; ring]
        have := hcurd
        nlinarith [hsegs seg (by simp), hpos seg (by simp)]
      · exact chain'_replace_head (by simp) hchain.2
    · rw [if_neg hd]
      intro s hs
      rcases List.mem_cons.mp hs with h | h
      · rw [h]
        exact hcur
      · exact ih seg (not_lt.mp hd) (hsegs seg (by simp))
          (fun t ht => hsegs t (by simp [ht])) (fun t ht => hpos t (by simp [ht]))
          hchain.2 s h

theorem mergeRun_tail_ge (msong : ℝ) (cur : Segment) (segs : List Segment)
    (hcurd : cur.duration_sec = cur.end_sec - cur.start_sec)
    (hsegs : ∀ s ∈ segs, s.duration_sec = s.end_sec - s.start_sec)
    (hpos : ∀ s ∈ segs, 0 ≤ s.duration_sec)
    (hchain : List.Chain' Contig (cur :: segs)) :
    ∀ s ∈ (mergeRun msong cur segs).tail, msong ≤ s.duration_sec := by
  induction segs generalizing cur with
  | nil =>
    intro s hs
    simp [mergeRun] at hs
  | cons seg rest ih =>
    rw [List.chain'_cons] at hchain
    rw [mergeRun_cons]
    by_cases hd : seg.duration_sec < msong
    · rw [if_pos hd]
      refine ih ⟨cur.index, cur.start_sec, seg.end_sec, seg.end_sec - cur.start_sec⟩
        rfl (fun t ht => hsegs t (by simp [ht])) (fun t ht => hpos t (by simp [ht])) ?_
      exact chain'_replace_head (by simp) hchain.2
    · rw [if_neg hd]
      intro s hs
      rw [List.tail_cons] at hs
      exact mergeRun_all_ge msong seg rest (not_lt.mp hd) (hsegs seg (by simp))
        (fun t ht => hsegs t (by simp [ht])) (fun t ht => hpos t (by simp [ht]))
        hchain.2 s hs

theorem mergeRun_nonneg (msong : ℝ) (cur : Segment) (segs : List Segment)
    (hcur : 0 ≤ cur.duration_sec)
    (hcurd : cur.duration_sec = cur.end_sec - cur.start_sec)
    (hsegs : ∀ s ∈ segs, s.duration_sec = s.end_sec - s.start_sec)
    (hpos : ∀ s ∈ segs, 0 ≤ s.duration_sec)
    (hchain : List.Chain' Contig (cur :: segs)) :
    ∀ s ∈ mergeRun msong cur segs, 0 ≤ s.duration_sec := by
  induction segs generalizing cur with
  | nil =>
    intro s hs
    rw [List.mem_singleton.mp hs]
    exact hcur
  | cons seg rest ih =>
    rw [List.chain'_cons] at hchain
    rw [mergeRun_cons]
    by_cases hd : seg.duration_sec < msong
    · rw [if_pos hd]
      refine ih ⟨cur.index, cur.start_sec, seg.end_sec, seg.end_sec - cur.start_sec⟩
        ?_ rfl (fun t ht => hsegs t (by simp [ht])) (fun t ht => hpos t (by simp [ht])) ?_
      · have h3 : seg.start_sec = cur.end_sec := (hchain.1).symm
        simp only
        rw [show seg.end_sec - cur.start_sec
            = (seg.end_sec - seg.start_sec) + (cur.end_sec - cur.start_sec) by
          rw [h3]; ring]
        nlinarith [hsegs seg (by simp), hpos seg (by simp), hcurd]
      · exact chain'_replace_head (by simp) hchain.2
    · rw [if_neg hd]
      intro s hs
      rcases List.mem_cons.mp hs with h | h
      · rw [h]
        exact hcur
      · exact ih seg (hpos seg (by simp)) (hsegs seg (by simp))
          (fun t ht => hsegs t (by simp [ht])) (fun t ht => hpos t (by simp [ht]))
          hchain.2 s h

theorem mergeRun_chain (msong : ℝ) (cur : Segment) (segs : List Segment)
    (hchain : List.Chain' Contig (cur :: segs)) :
    List.Chain' Contig (mergeRun msong cur segs) := by
  induction segs generalizing cur with
  | nil => simp [mergeRun]
  | cons seg rest ih =>
    rw [List.chain'_cons] at hchain
    rw [mergeRun_cons]
    by_cases hd : seg.duration_sec < msong
    · rw [if_pos hd]
      exact ih _ (chain'_replace_head (by simp) hchain.2)
    · rw [if_neg hd]
      obtain ⟨h, hrest, heq, hstart, _⟩ := mergeRun_head msong seg rest
      rw [heq]
      rw [List.chain'_cons]
      constructor
      · rw [Contig, hstart]
        exact hchain.1
      · rw [← heq]
        exact ih seg hchain.2

end Splitter

namespace Splitter

/-! ### Provisional segments and reindexing -/



theorem mkSegments_length (bs : List ℕ) (sr : ℕ) :
    (mkSegments bs sr).length = bs.length - 1 := by
  unfold mkSegments
  rw [List.length_map, List.enum_length, List.length_zip, List.length_tail]
  omega

theorem mkSegments_get (bs : List ℕ) (sr : ℕ) (i : ℕ) (hi : i < (mkSegments bs sr).length) :
    (mkSegments bs sr).get ⟨i, hi⟩ =
      ⟨i, ((bs.get ⟨i, by rw [mkSegments_length] at hi; omega⟩ : ℕ) : ℝ) / sr,
        ((bs.get ⟨i + 1, by rw [mkSegments_length] at hi; omega⟩ : ℕ) : ℝ) / sr,
        ((bs.get ⟨i + 1, by rw [mkSegments_length] at hi; omega⟩ : ℕ) : ℝ) / sr -
          ((bs.get ⟨i, by rw [mkSegments_length] at hi; omega⟩ : ℕ) : ℝ) / sr⟩ := by
  have hlen := mkSegments_length bs sr
  apply Segment.ext_iff'.mpr
  unfold mkSegments
  refine ⟨?_, ?_, ?_, ?_⟩ <;>
    simp [List.get_eq_getElem, List.getElem_map, List.getElem_enum, List.getElem_zip,
      List.getElem_tail]

theorem mkSegments_durations (bs : List ℕ) (sr : ℕ) :
    ∀ s ∈ mkSegments bs sr, s.duration_sec = s.end_sec - s.start_sec := by
  intro s hs
  obtain ⟨⟨i, hi⟩, hg⟩ := List.mem_iff_get.mp hs
  rw [← hg, mkSegments_get]

theorem mkSegments_nonneg (bs : List ℕ) (sr : ℕ) (hmono : List.Chain' (· ≤ ·) bs) :
    ∀ s ∈ mkSegments bs sr, 0 ≤ s.duration_sec := by
  intro s hs
  obtain ⟨⟨i, hi⟩, hg⟩ := List.mem_iff_get.mp hs
  rw [← hg, mkSegments_get]
  simp only
  rw [sub_nonneg]
  apply div_le_div_of_nonneg_right _ (by positivity)
  have hle := List.chain'_iff_get.mp hmono i (by rw [mkSegments_length] at hi; omega)
  exact_mod_cast hle

theorem mkSegments_chain (bs : List ℕ) (sr : ℕ) :
    List.Chain' Contig (mkSegments bs sr) := by
  rw [List.chain'_iff_get]
  intro i hlt
  rw [mkSegments_get, mkSegments_get]
  rw [Contig]

theorem lastEnd_eq_getLast? (d : ℝ) (l : List Segment) :
    lastEnd d l = (l.getLast?.map Segment.end_sec).getD d := by
  induction l with
  | nil => rfl
  | cons a rest ih =>
    cases rest with
    | nil => rfl
    | cons b rs =>
      rw [lastEnd_cons_cons, ih, List.getLast?_cons_cons]

theorem mkSegments_head_start (b0 : ℕ) (bs : List ℕ) (sr : ℕ) (x : Segment)
    (rest : List Segment) (heq : mkSegments (b0 :: bs) sr = x :: rest) :
    x.start_sec = ((b0 : ℕ) : ℝ) / sr := by
  have hlen : 0 < (mkSegments (b0 :: bs) sr).length := by
    rw [heq]
    simp
  have h1 : (mkSegments (b0 :: bs) sr).get? 0 = some x := by
    rw [heq]
    rfl
  rw [List.get?_eq_get hlen, mkSegments_get] at h1
  have h2 := Option.some.inj h1
  rw [← h2]
  rfl

theorem mkSegments_lastEnd (bs : List ℕ) (sr : ℕ) (d : ℝ) (h2 : 2 ≤ bs.length) :
    lastEnd d (mkSegments bs sr)
      = ((bs.get ⟨bs.length - 1, by omega⟩ : ℕ) : ℝ) / sr := by
  have hlen := mkSegments_length bs sr
  have hne : 0 < (mkSegments bs sr).length := by omega
  rw [lastEnd_eq_getLast?, List.getLast?_eq_getElem?,
    List.getElem?_eq_getElem (by omega : (mkSegments bs sr).length - 1
      < (mkSegments bs sr).length)]
  rw [show (mkSegments bs sr)[(mkSegments bs sr).length - 1]
      = (mkSegments bs sr).get ⟨(mkSegments bs sr).length - 1, by omega⟩ from rfl]
  rw [mkSegments_get]
  simp only [Option.map_some', Option.getD_some, List.get_eq_getElem]
  have hidx : (mkSegments bs sr).length - 1 + 1 = bs.length - 1 := by omega
  simp only [hidx]

end Splitter

namespace Splitter

/-! ### Quiet regions: unfiltered maximal runs and the duration filter -/



theorem quietScan_eq_filter (fts ms : ℝ) :
    ∀ (l : List Bool) (i : ℕ) (st : Option ℕ),
      quietScan fts ms l i st
        = (trueRunsAux l i st).filter (fun r => decide (ms ≤ ((r.2 - r.1 : ℕ) : ℝ) * fts)) := by
  intro l
  induction l with
  | nil =>
    intro i st
    cases st with
    | none => rfl
    | some s =>
      show (if ms ≤ ((i - s : ℕ) : ℝ) * fts then [(s, i)] else []) = _
      rw [show trueRunsAux [] i (some s) = [(s, i)] from rfl, List.filter_singleton]
      by_cases h : ms ≤ ((i - s : ℕ) : ℝ) * fts
      · rw [if_pos h]
        simp [h]
      · rw [if_neg h]
        simp [h]
  | cons q rest ih =>
    intro i st
    cases st with
    | none =>
      show (if q then quietScan fts ms rest (i + 1) (some i)
          else quietScan fts ms rest (i + 1) none) = _
      by_cases hq : q = true
      · rw [if_pos hq, ih]
        rw [show trueRunsAux (q :: rest) i none = trueRunsAux rest (i + 1) (some i) from by
          show (if q then _ else _) = _
          rw [if_pos hq]]
      · rw [if_neg hq, ih]
        rw [show trueRunsAux (q :: rest) i none = trueRunsAux rest (i + 1) none from by
          show (if q then _ else _) = _
          rw [if_neg hq]]
    | some s =>
      show (if q then quietScan fts ms rest (i + 1) (some s)
          else (if ms ≤ ((i - s : ℕ) : ℝ) * fts then [(s, i)] else []) ++
            quietScan fts ms rest (i + 1) none) = _
      by_cases hq : q = true
      · rw [if_pos hq, ih]
        rw [show trueRunsAux (q :: rest) i (some s) = trueRunsAux rest (i + 1) (some s) from by
          show (if q then _ else _) = _
          rw [if_pos hq]]
      · rw [if_neg hq, ih]
        rw [show trueRunsAux (q :: rest) i (some s)
            = (s, i) :: trueRunsAux rest (i + 1) none from by
          show (if q then _ else _) = _
          rw [if_neg hq]]
        rw [List.filter_cons]
        by_cases h : ms ≤ ((i - s : ℕ) : ℝ) * fts
        · rw [if_pos h]
          simp [h]
        · rw [if_neg h]
          simp [h]

theorem findQuietRegions_eq_filter (flags : List Bool) (fts ms : ℝ) :
    findQuietRegions flags fts ms
      = (trueRuns flags).filter (fun r => decide (ms ≤ ((r.2 - r.1 : ℕ) : ℝ) * fts)) :=
  quietScan_eq_filter fts ms flags 0 none

end Splitter

namespace Splitter

theorem getD_of_drop_cons {glob : List Bool} {i : ℕ} {q : Bool} {rest : List Bool}
    (h : glob.drop i = q :: rest) : glob.getD i false = q := by
  have h1 : glob.get? i = some q := by
    have h2 := List.get?_drop glob i 0
    rw [h] at h2
    rw [show i + 0 = i by omega] at h2
    rw [← h2]
    rfl
  rw [List.getD_eq_getD_get?, h1]
  rfl

theorem drop_succ_of_drop_cons {glob : List Bool} {i : ℕ} {q : Bool} {rest : List Bool}
    (h : glob.drop i = q :: rest) : glob.drop (i + 1) = rest := by
  rw [← List.drop_drop 1 i, h]
  rfl

theorem lt_length_of_drop_cons {glob : List Bool} {i : ℕ} {q : Bool} {rest : List Bool}
    (h : glob.drop i = q :: rest) : i < glob.length := by
  by_contra hge
  rw [List.drop_eq_nil_of_le (by omega)] at h
  exact List.noConfusion h

/-- Full characterization of the unfiltered quiet-run scan: every produced run
is non-empty, lies inside the frame range, consists entirely of `true` flags,
is maximal (flanked by list boundaries or `false` flags), respects the lower
bound given by the scan state, and the runs are pairwise ordered and
disjoint. -/
theorem trueRunsAux_spec (glob : List Bool) :
    ∀ (l : List Bool) (i : ℕ) (st : Option ℕ),
      glob.drop i = l →
      (∀ s, st = some s → s < i ∧ (∀ j, s ≤ j → j < i → glob.getD j false = true) ∧
        (s = 0 ∨ glob.getD (s - 1) false = false)) →
      (st = none → i = 0 ∨ glob.getD (i - 1) false = false) →
      (∀ r ∈ trueRunsAux l i st,
        (∀ s, st = some s → s ≤ r.1) ∧ (st = none → i ≤ r.1) ∧
        r.1 < r.2 ∧ r.2 ≤ glob.length ∧
        (∀ j, r.1 ≤ j → j < r.2 → glob.getD j false = true) ∧
        (r.1 = 0 ∨ glob.getD (r.1 - 1) false = false) ∧
        (r.2 = glob.length ∨ glob.getD r.2 false = false)) ∧
      List.Pairwise (fun r r' : ℕ × ℕ => r.2 ≤ r'.1) (trueRunsAux l i st) := by
  intro l
  induction l with
  | nil =>
    intro i st hdrop hsome _
    cases st with
    | none =>
      constructor
      · intro r hr
        simp [trueRunsAux] at hr
      · simp [trueRunsAux]
    | some s =>
      have hs := hsome s rfl
      have hilen : i ≤ glob.length := by
        by_contra hgt
        push_neg at hgt
        have h1 := hs.2.1 (i - 1) (by omega) (by omega)
        rw [List.getD_eq_getD_get?, List.get?_eq_none.mpr (by omega)] at h1
        exact Bool.noConfusion h1
      have hlen2 : glob.length ≤ i := by
        by_contra hlt
        have := List.drop_eq_nil_iff_le.mp hdrop
        omega
      have hieq : (i : ℕ) = glob.length := by omega
      rw [show trueRunsAux [] i (some s) = [(s, i)] from rfl]
      constructor
      · intro r hr
        rw [List.mem_singleton.mp hr]
        refine ⟨fun s' hs' => by rw [Option.some.inj hs'],
          fun hcon => absurd hcon (Option.some_ne_none s),
          hs.1, by omega, fun j hj1 hj2 => hs.2.1 j hj1 (by omega), hs.2.2, Or.inl hieq⟩
      · simp
  | cons q rest ih =>
    intro i st hdrop hsome hnone
    have hq := getD_of_drop_cons hdrop
    have hdrop' := drop_succ_of_drop_cons hdrop
    have hilt := lt_length_of_drop_cons hdrop
    cases st with
    | none =>
      by_cases hqt : q = true
      · rw [show trueRunsAux (q :: rest) i none = trueRunsAux rest (i + 1) (some i) from by
          show (if q then _ else _) = _
          rw [if_pos hqt]]
        have hrec := ih (i + 1) (some i) hdrop'
          (fun s hs => by
            rw [← Option.some.inj hs]
            exact ⟨by omega, fun j hj1 hj2 => by
              rw [show j = i by omega, ← hqt]
              exact hq, hnone rfl⟩)
          (fun hcon => absurd hcon (Option.some_ne_none i))
        refine ⟨fun r hr => ?_, hrec.2⟩
        have h := hrec.1 r hr
        exact ⟨fun s hs => ((Option.some_ne_none s) hs.symm).elim,
          fun _ => by have := h.1 i rfl; omega, h.2.2.1, h.2.2.2.1, h.2.2.2.2.1,
          h.2.2.2.2.2.1, h.2.2.2.2.2.2⟩
      · rw [show trueRunsAux (q :: rest) i none = trueRunsAux rest (i + 1) none from by
          show (if q then _ else _) = _
          rw [if_neg hqt]]
        have hqf : glob.getD i false = false := by
          rw [hq]
          cases q with
          | false => rfl
          | true => exact absurd rfl hqt
        have hrec := ih (i + 1) none hdrop'
          (fun s hs => ((Option.some_ne_none s) hs.symm).elim)
          (fun _ => Or.inr (by rw [show i + 1 - 1 = i by omega]; exact hqf))
        refine ⟨fun r hr => ?_, hrec.2⟩
        have h := hrec.1 r hr
        exact ⟨fun s hs => ((Option.some_ne_none s) hs.symm).elim, fun _ => by
          have := h.2.1 rfl
          omega, h.2.2.1, h.2.2.2.1, h.2.2.2.2.1, h.2.2.2.2.2.1, h.2.2.2.2.2.2⟩
    | some s =>
      have hs := hsome s rfl
      by_cases hqt : q = true
      · rw [show trueRunsAux (q :: rest) i (some s) = trueRunsAux rest (i + 1) (some s) from by
          show (if q then _ else _) = _
          rw [if_pos hqt]]
        have hrec := ih (i + 1) (some s) hdrop'
          (fun s' hs' => by
            rw [← Option.some.inj hs']
            refine ⟨by omega, fun j hj1 hj2 => ?_, hs.2.2⟩
            by_cases hji : j = i
            · rw [hji, ← hqt]
              exact hq
            · exact hs.2.1 j hj1 (by omega))
          (fun hcon => absurd hcon (Option.some_ne_none s))
        refine ⟨fun r hr => ?_, hrec.2⟩
        have h := hrec.1 r hr
        exact ⟨h.1, fun hcon => absurd hcon (Option.some_ne_none s), h.2.2.1, h.2.2.2.1,
          h.2.2.2.2.1, h.2.2.2.2.2.1, h.2.2.2.2.2.2⟩
      · rw [show trueRunsAux (q :: rest) i (some s)
            = (s, i) :: trueRunsAux rest (i + 1) none from by
          show (if q then _ else _) = _
          rw [if_neg hqt]]
        have hqf : glob.getD i false = false := by
          rw [hq]
          cases q with
          | false => rfl
          | true => exact absurd rfl hqt
        have hrec := ih (i + 1) none hdrop'
          (fun s' hs' => ((Option.some_ne_none s') hs'.symm).elim)
          (fun _ => Or.inr (by rw [show i + 1 - 1 = i by omega]; exact hqf))
        constructor
        · intro r hr
          rcases List.mem_cons.mp hr with h | h
          · rw [h]
            refine ⟨fun s' hs' => by rw [Option.some.inj hs'],
              fun hcon => absurd hcon (Option.some_ne_none s),
              hs.1, by omega, fun j hj1 hj2 => hs.2.1 j hj1 (by omega), hs.2.2, Or.inr hqf⟩
          · have hh := hrec.1 r h
            refine ⟨fun s' hs' => by
              rw [← Option.some.inj hs']
              have := hh.2.1 rfl
              omega, fun hcon => absurd hcon (Option.some_ne_none s), hh.2.2.1, hh.2.2.2.1,
              hh.2.2.2.2.1, hh.2.2.2.2.2.1, hh.2.2.2.2.2.2⟩
        · rw [List.pairwise_cons]
          refine ⟨fun r hr => ?_, hrec.2⟩
          have := (hrec.1 r hr).2.1 rfl
          omega

theorem trueRuns_spec (flags : List Bool) :
    (∀ r ∈ trueRuns flags,
      r.1 < r.2 ∧ r.2 ≤ flags.length ∧
      (∀ j, r.1 ≤ j → j < r.2 → flags.getD j false = true) ∧
      (r.1 = 0 ∨ flags.getD (r.1 - 1) false = false) ∧
      (r.2 = flags.length ∨ flags.getD r.2 false = false)) ∧
    List.Pairwise (fun r r' : ℕ × ℕ => r.2 ≤ r'.1) (trueRuns flags) := by
  have h := trueRunsAux_spec flags flags 0 none rfl (fun s hs => Option.noConfusion hs)
    (fun _ => Or.inl rfl)
  exact ⟨fun r hr => ⟨(h.1 r hr).2.2.1, (h.1 r hr).2.2.2.1, (h.1 r hr).2.2.2.2.1,
    (h.1 r hr).2.2.2.2.2.1, (h.1 r hr).2.2.2.2.2.2⟩, h.2⟩

theorem findQuietRegions_spec (flags : List Bool) (fts ms : ℝ) :
    (∀ r ∈ findQuietRegions flags fts ms,
      r.1 < r.2 ∧ r.2 ≤ flags.length ∧ ms ≤ ((r.2 - r.1 : ℕ) : ℝ) * fts ∧
      (∀ j, r.1 ≤ j → j < r.2 → flags.getD j false = true)) ∧
    List.Pairwise (fun r r' : ℕ × ℕ => r.2 ≤ r'.1) (findQuietRegions flags fts ms) := by
  rw [findQuietRegions_eq_filter]
  have h := trueRuns_spec flags
  constructor
  · intro r hr
    have hmem := List.mem_of_mem_filter hr
    have hdur := List.of_mem_filter hr
    rw [decide_eq_true_eq] at hdur
    exact ⟨(h.1 r hmem).1, (h.1 r hmem).2.1, hdur, (h.1 r hmem).2.2.1⟩
  · exact h.2.filter _

end Splitter

namespace Splitter

/-! ### Reindexing preserves everything except indices -/

theorem reindex_fields (l : List Segment) :
    (reindex l).map segFields = l.map segFields := by
  unfold reindex
  rw [List.map_map]
  have h : (segFields ∘ fun p : ℕ × Segment => { p.2 with index := p.1 })
      = segFields ∘ Prod.snd := rfl
  rw [h, ← List.map_map, List.enum_map_snd]

theorem reindex_indices (l : List Segment) :
    (reindex l).map Segment.index = List.range l.length := by
  unfold reindex
  rw [List.map_map]
  have h : (Segment.index ∘ fun p : ℕ × Segment => { p.2 with index := p.1 }) = Prod.fst := rfl
  rw [h, List.enum_map_fst]

theorem reindex_length (l : List Segment) : (reindex l).length = l.length := by
  unfold reindex
  rw [List.length_map, List.enum_length]

theorem fields_mem {l₁ l₂ : List Segment} (h : l₁.map segFields = l₂.map segFields)
    {s : Segment} (hs : s ∈ l₁) :
    ∃ t ∈ l₂, s.start_sec = t.start_sec ∧ s.end_sec = t.end_sec ∧
      s.duration_sec = t.duration_sec := by
  have h1 : segFields s ∈ l₂.map segFields := h ▸ List.mem_map_of_mem segFields hs
  obtain ⟨t, ht, hts⟩ := List.mem_map.mp h1
  have h2 : (t.start_sec, t.end_sec, t.duration_sec) = (s.start_sec, s.end_sec, s.duration_sec) :=
    hts
  refine ⟨t, ht, ?_, ?_, ?_⟩ <;> [skip; skip; skip] <;>
    injection h2 with ha hb <;>
    [exact ha.symm; skip; skip] <;>
    injection hb with hc hd <;>
    [exact hc.symm; exact hd.symm]

theorem chain'_contig_of_fields {l₁ l₂ : List Segment}
    (h : l₁.map segFields = l₂.map segFields) (hc : List.Chain' Contig l₂) :
    List.Chain' Contig l₁ := by
  have h1 : List.Chain' (fun a b : ℝ × ℝ × ℝ => a.2.1 = b.1) (l₂.map segFields) := by
    rw [List.chain'_map]
    exact hc
  rw [← h, List.chain'_map] at h1
  exact h1

theorem lastEnd_via_fields (d : ℝ) (l : List Segment) :
    lastEnd d l = (((l.map segFields).getLast?).map (fun x => x.2.1)).getD d := by
  rw [lastEnd_eq_getLast?, List.getLast?_map]
  cases hl : l.getLast? with
  | none => rfl
  | some a => rfl

theorem lastEnd_congr (d : ℝ) {l₁ l₂ : List Segment}
    (h : l₁.map segFields = l₂.map segFields) : lastEnd d l₁ = lastEnd d l₂ := by
  rw [lastEnd_via_fields, lastEnd_via_fields, h]

theorem head_start_via_fields {l₁ l₂ : List Segment}
    (h : l₁.map segFields = l₂.map segFields) {x : Segment} {r1 : List Segment}
    (h1 : l₁ = x :: r1) {y : Segment} {r2 : List Segment} (h2 : l₂ = y :: r2) :
    x.start_sec = y.start_sec := by
  rw [h1, h2] at h
  simp only [List.map_cons, List.cons.injEq] at h
  have := h.1
  unfold segFields at this
  injection this with ha _

end Splitter

namespace Splitter

/-! ### Splits and boundaries -/

theorem splits_le (flags : List Bool) (fts ms : ℝ) (hop n : ℕ) (hlen : flags.length = n)
    (hn : 1 ≤ n) :
    ∀ x ∈ splitSamples (findQuietRegions flags fts ms) hop, x ≤ (n - 1) * hop := by
  intro x hx
  obtain ⟨r, hr, hrx⟩ := List.mem_map.mp hx
  have hspec := (findQuietRegions_spec flags fts ms).1 r hr
  rw [← hrx]
  have h1 : (r.1 + r.2) / 2 ≤ n - 1 := by
    have h2 : r.2 ≤ n := hlen ▸ hspec.2.1
    have h3 : r.1 < r.2 := hspec.1
    omega
  exact Nat.mul_le_mul_right hop h1

theorem splits_pairwise (flags : List Bool) (fts ms : ℝ) (hop : ℕ) :
    List.Pairwise (· ≤ ·) (splitSamples (findQuietRegions flags fts ms) hop) := by
  have hspec := findQuietRegions_spec flags fts ms
  unfold splitSamples
  apply List.Pairwise.map
  · intro a b hab
    exact hab
  apply List.Pairwise.imp_of_mem ?_ hspec.2
  intro a b ha hb hab
  have ha' := (hspec.1 a ha).1
  have hb' := (hspec.1 b hb).1
  have h1 : (a.1 + a.2) / 2 ≤ a.2 := by omega
  have h2 : b.1 ≤ (b.1 + b.2) / 2 := by omega
  exact Nat.mul_le_mul_right hop (by omega)

theorem boundaries_chain (splits : List ℕ) (total : ℕ)
    (hle : ∀ x ∈ splits, x ≤ total) (hpw : List.Pairwise (· ≤ ·) splits) :
    List.Chain' (· ≤ ·) (mkBoundaries splits total) := by
  unfold mkBoundaries
  rw [show (0 : ℕ) :: splits ++ [total] = ((0 : ℕ) :: splits) ++ [total] from rfl]
  rw [List.chain'_append]
  refine ⟨?_, by simp, ?_⟩
  · rw [List.chain'_cons']
    exact ⟨fun h _ => Nat.zero_le h, hpw.chain'⟩
  · intro x hx y hy
    have hyt : y = total := by
      rw [Option.mem_def] at hy
      exact (Option.some.inj hy).symm
    rw [hyt]
    rcases List.mem_getLast?_eq_getLast (by exact hx) with ⟨hne, hx'⟩
    rw [hx']
    have hmem := List.getLast_mem hne
    rcases List.mem_cons.mp hmem with h0 | hsp
    · rw [h0]
      exact Nat.zero_le total
    · exact hle _ hsp

end Splitter

namespace Splitter

theorem detectCore_segments_eq (rmsDb bwRaw : List ℝ) (sr hop total : ℕ) (ms msong : ℝ) :
    (detectCore rmsDb bwRaw sr hop total ms msong).segments
      = reindex (mergePass msong (mkSegments (mkBoundaries (splitSamples
          ((detectCore rmsDb bwRaw sr hop total ms msong).quiet_regions) hop) total) sr)) := rfl

/-- All structural conclusions about the back half of the pipeline (from split
points to the final reindexed segment list), given monotone boundaries. -/
theorem backHalf_facts (regions : List (ℕ × ℕ)) (hop total sr : ℕ) (msong : ℝ)
    (hmono : List.Chain' (· ≤ ·) (mkBoundaries (splitSamples regions hop) total)) :
    ∀ out, out = reindex (mergePass msong
        (mkSegments (mkBoundaries (splitSamples regions hop) total) sr)) →
      out ≠ [] ∧
      (∀ s ∈ out, s.duration_sec = s.end_sec - s.start_sec) ∧
      (∀ s ∈ out, 0 ≤ s.duration_sec) ∧
      List.Chain' Contig out ∧
      (∀ s ∈ out.tail, msong ≤ s.duration_sec) ∧
      (∀ x r1, out = x :: r1 → x.start_sec = 0) ∧
      lastEnd 0 out = (total : ℝ) / sr ∧
      out.map Segment.index = List.range out.length := by
  intro out hout
  have hblen : 2 ≤ (mkBoundaries (splitSamples regions hop) total).length := by
    unfold mkBoundaries
    simp
  have hslen : 1 ≤ (mkSegments (mkBoundaries (splitSamples regions hop) total) sr).length := by
    rw [mkSegments_length]
    omega
  obtain ⟨x0, provRest, hsegs_eq⟩ :
      ∃ x0 provRest, mkSegments (mkBoundaries (splitSamples regions hop) total) sr
        = x0 :: provRest := by
    cases hs : mkSegments (mkBoundaries (splitSamples regions hop) total) sr with
    | nil => rw [hs] at hslen; simp at hslen
    | cons a l => exact ⟨a, l, rfl⟩
  have hmp : mergePass msong (mkSegments (mkBoundaries (splitSamples regions hop) total) sr)
      = mergeRun msong x0 provRest := by
    rw [hsegs_eq, mergePass_cons]
  have hdur := mkSegments_durations (mkBoundaries (splitSamples regions hop) total) sr
  have hnn := mkSegments_nonneg (mkBoundaries (splitSamples regions hop) total) sr hmono
  have hch := mkSegments_chain (mkBoundaries (splitSamples regions hop) total) sr
  have hx0dur : x0.duration_sec = x0.end_sec - x0.start_sec :=
    hdur x0 (by rw [hsegs_eq]; simp)
  have hx0nn : 0 ≤ x0.duration_sec := hnn x0 (by rw [hsegs_eq]; simp)
  have hrestdur : ∀ s ∈ provRest, s.duration_sec = s.end_sec - s.start_sec :=
    fun s hs => hdur s (by rw [hsegs_eq]; simp [hs])
  have hrestnn : ∀ s ∈ provRest, 0 ≤ s.duration_sec :=
    fun s hs => hnn s (by rw [hsegs_eq]; simp [hs])
  have hchain : List.Chain' Contig (x0 :: provRest) := hsegs_eq ▸ hch
  have hx0start : x0.start_sec = 0 := by
    have h := mkSegments_head_start 0 (splitSamples regions hop ++ [total]) sr x0 provRest
      (by rw [← hsegs_eq]; rfl)
    rw [h]
    simp
  have hfields : out.map segFields = (mergeRun msong x0 provRest).map segFields := by
    rw [hout, hmp]
    exact reindex_fields _
  have hmr_ne := mergeRun_ne_nil msong x0 provRest
  refine ⟨?_, ?_, ?_, ?_, ?_, ?_, ?_, ?_⟩
  · intro hnil
    rw [hnil] at hfields
    cases hme : mergeRun msong x0 provRest with
    | nil => exact hmr_ne hme
    | cons a l =>
      rw [hme] at hfields
      exact List.noConfusion hfields
  · intro s hs
    obtain ⟨t, ht, h1, h2, h3⟩ := fields_mem hfields hs
    rw [h1, h2, h3]
    exact mergeRun_durations msong x0 provRest hx0dur hrestdur t ht
  · intro s hs
    obtain ⟨t, ht, _, _, h3⟩ := fields_mem hfields hs
    rw [h3]
    exact mergeRun_nonneg msong x0 provRest hx0nn hx0dur hrestdur hrestnn hchain t ht
  · exact chain'_contig_of_fields hfields (mergeRun_chain msong x0 provRest hchain)
  · intro s hs
    have htails : out.tail.map segFields = (mergeRun msong x0 provRest).tail.map segFields := by
      rw [List.map_tail, List.map_tail, hfields]
    obtain ⟨t, ht, _, _, h3⟩ := fields_mem htails hs
    rw [h3]
    exact mergeRun_tail_ge msong x0 provRest hx0dur hrestdur hrestnn hchain t ht
  · intro x r1 hxr
    obtain ⟨h, hrest, heq, hstart, _⟩ := mergeRun_head msong x0 provRest
    rw [head_start_via_fields hfields hxr heq, hstart, hx0start]
  · rw [lastEnd_congr 0 hfields, mergeRun_lastEnd, ← hsegs_eq]
    rw [mkSegments_lastEnd _ _ _ hblen]
    congr 2
    rw [List.get_eq_getElem]
    have hgl : (mkBoundaries (splitSamples regions hop) total).getLast? = some total := by
      unfold mkBoundaries
      rw [List.getLast?_concat]
    rw [List.getLast?_eq_getElem?, List.getElem?_eq_getElem (by omega)] at hgl
    exact Option.some.inj hgl
  · rw [hout, reindex_indices, reindex_length]

end Splitter

namespace Splitter

/-- The structural conclusions about the back half of the pipeline that hold
for every region list, monotone boundaries or not. -/
theorem backHalf_basic (regions : List (ℕ × ℕ)) (hop total sr : ℕ) (msong : ℝ) :
    ∀ out, out = reindex (mergePass msong
        (mkSegments (mkBoundaries (splitSamples regions hop) total) sr)) →
      out ≠ [] ∧
      (∀ s ∈ out, s.duration_sec = s.end_sec - s.start_sec) ∧
      List.Chain' Contig out ∧
      (∀ x r1, out = x :: r1 → x.start_sec = 0) ∧
      lastEnd 0 out = (total : ℝ) / sr ∧
      out.map Segment.index = List.range out.length := by
  intro out hout
  have hblen : 2 ≤ (mkBoundaries (splitSamples regions hop) total).length := by
    unfold mkBoundaries
    simp
  have hslen : 1 ≤ (mkSegments (mkBoundaries (splitSamples regions hop) total) sr).length := by
    rw [mkSegments_length]
    omega
  obtain ⟨x0, provRest, hsegs_eq⟩ :
      ∃ x0 provRest, mkSegments (mkBoundaries (splitSamples regions hop) total) sr
        = x0 :: provRest := by
    cases hs : mkSegments (mkBoundaries (splitSamples regions hop) total) sr with
    | nil => rw [hs] at hslen; simp at hslen
    | cons a l => exact ⟨a, l, rfl⟩
  have hmp : mergePass msong (mkSegments (mkBoundaries (splitSamples regions hop) total) sr)
      = mergeRun msong x0 provRest := by
    rw [hsegs_eq, mergePass_cons]
  have hdur := mkSegments_durations (mkBoundaries (splitSamples regions hop) total) sr
  have hch := mkSegments_chain (mkBoundaries (splitSamples regions hop) total) sr
  have hx0dur : x0.duration_sec = x0.end_sec - x0.start_sec :=
    hdur x0 (by rw [hsegs_eq]; simp)
  have hrestdur : ∀ s ∈ provRest, s.duration_sec = s.end_sec - s.start_sec :=
    fun s hs => hdur s (by rw [hsegs_eq]; simp [hs])
  have hchain : List.Chain' Contig (x0 :: provRest) := hsegs_eq ▸ hch
  have hx0start : x0.start_sec = 0 := by
    have h := mkSegments_head_start 0 (splitSamples regions hop ++ [total]) sr x0 provRest
      (by rw [← hsegs_eq]; rfl)
    rw [h]
    simp
  have hfields : out.map segFields = (mergeRun msong x0 provRest).map segFields := by
    rw [hout, hmp]
    exact reindex_fields _
  have hmr_ne := mergeRun_ne_nil msong x0 provRest
  refine ⟨?_, ?_, ?_, ?_, ?_, ?_⟩
  · intro hnil
    rw [hnil] at hfields
    cases hme : mergeRun msong x0 provRest with
    | nil => exact hmr_ne hme
    | cons a l =>
      rw [hme] at hfields
      exact List.noConfusion hfields
  · intro s hs
    obtain ⟨t, ht, h1, h2, h3⟩ := fields_mem hfields hs
    rw [h1, h2, h3]
    exact mergeRun_durations msong x0 provRest hx0dur hrestdur t ht
  · exact chain'_contig_of_fields hfields (mergeRun_chain msong x0 provRest hchain)
  · intro x r1 hxr
    obtain ⟨h, hrest, heq, hstart, _⟩ := mergeRun_head msong x0 provRest
    rw [head_start_via_fields hfields hxr heq, hstart, hx0start]
  · rw [lastEnd_congr 0 hfields, mergeRun_lastEnd, ← hsegs_eq]
    rw [mkSegments_lastEnd _ _ _ hblen]
    congr 2
    rw [List.get_eq_getElem]
    have hgl : (mkBoundaries (splitSamples regions hop) total).getLast? = some total := by
      unfold mkBoundaries
      rw [List.getLast?_concat]
    rw [List.getLast?_eq_getElem?, List.getElem?_eq_getElem (by omega)] at hgl
    exact Option.some.inj hgl
  · rw [hout, reindex_indices, reindex_length]

end Splitter

namespace Splitter



theorem mergeStep_eq_spec (msong : ℝ) (acc : List Segment) (seg : Segment) :
    mergeStep msong acc seg = mergeStepSpec msong acc seg := by
  cases acc with
  | nil =>
    show (match (List.getLast? ([] : List Segment)) with
      | none => [] ++ [seg]
      | some prev => if seg.duration_sec < msong then
          List.dropLast [] ++ [{
            index := prev.index,
            start_sec := prev.start_sec,
            end_sec := seg.end_sec,
            duration_sec := seg.end_sec - prev.start_sec }]
        else [] ++ [seg]) = mergeStepSpec msong [] seg
    rw [show List.getLast? ([] : List Segment) = none from rfl]
    unfold mergeStepSpec
    rw [if_neg (by simp)]
  | cons a l =>
    have hne : (a :: l : List Segment) ≠ [] := List.cons_ne_nil a l
    have hgl : (a :: l).getLast? = some ((a :: l).getLast hne) := List.getLast?_eq_getLast _ hne
    have hgd : (a :: l).getLastD seg = (a :: l).getLast hne := by
      rw [List.getLastD_eq_getLast?, hgl]
      rfl
    show (match (a :: l).getLast? with
      | none => (a :: l) ++ [seg]
      | some prev => if seg.duration_sec < msong then
          (a :: l).dropLast ++ [{
            index := prev.index,
            start_sec := prev.start_sec,
            end_sec := seg.end_sec,
            duration_sec := seg.end_sec - prev.start_sec }]
        else (a :: l) ++ [seg]) = mergeStepSpec msong (a :: l) seg
    rw [hgl]
    show (if seg.duration_sec < msong then
        (a :: l).dropLast ++ [{
          index := ((a :: l).getLast hne).index,
          start_sec := ((a :: l).getLast hne).start_sec,
          end_sec := seg.end_sec,
          duration_sec := seg.end_sec - ((a :: l).getLast hne).start_sec }]
      else (a :: l) ++ [seg]) = mergeStepSpec msong (a :: l) seg
    unfold mergeStepSpec
    by_cases hd : seg.duration_sec < msong
    · rw [if_pos hd, if_pos ⟨by simp, hd⟩]
      simp only [hgd]
    · rw [if_neg hd, if_neg (by intro h; exact hd h.2)]

theorem mergePass_eq_spec (msong : ℝ) (segs : List Segment) :
    mergePass msong segs = mergePassSpec msong segs := by
  unfold mergePass mergePassSpec
  have h : mergeStep msong = mergeStepSpec msong := by
    funext acc seg
    exact mergeStep_eq_spec msong acc seg
  rw [h]

theorem mergeStep_prefix_stable (msong : ℝ) (acc : List Segment) (seg : Segment) :
    (mergeStep msong acc seg).take (acc.length - 1) = acc.take (acc.length - 1) := by
  rw [mergeStep_eq_spec]
  unfold mergeStepSpec
  by_cases h : 1 ≤ acc.length ∧ seg.duration_sec < msong
  · rw [if_pos h]
    rw [List.take_append_of_le_length (by rw [List.length_dropLast])]
    rw [List.dropLast_eq_take]
    rw [List.take_take]
    simp
  · rw [if_neg h]
    exact List.take_append_of_le_length (by omega)

end Splitter

namespace Splitter

/-- Completeness of the quiet-run scan: every `true` flag is covered by some
produced run. -/
theorem trueRunsAux_cover (glob : List Bool) :
    ∀ (l : List Bool) (i : ℕ) (st : Option ℕ),
      glob.drop i = l →
      ∀ j, j < glob.length → glob.getD j false = true →
        (∀ s, st = some s → s ≤ j) → (st = none → i ≤ j) →
        ∃ r ∈ trueRunsAux l i st, r.1 ≤ j ∧ j < r.2 := by
  intro l
  induction l with
  | nil =>
    intro i st hdrop j hj hjt hsome hnone
    have hlen : glob.length ≤ i := by
      by_contra hlt
      rw [List.drop_eq_nil_iff_le] at hdrop
      omega
    cases st with
    | none =>
      have := hnone rfl
      omega
    | some s =>
      refine ⟨(s, i), by simp [trueRunsAux], hsome s rfl, by omega⟩
  | cons q rest ih =>
    intro i st hdrop j hj hjt hsome hnone
    have hq : glob.getD i false = q := getD_of_drop_cons hdrop
    have hdrop' : glob.drop (i + 1) = rest := drop_succ_of_drop_cons hdrop
    cases st with
    | none =>
      by_cases hqt : q = true
      · rw [show trueRunsAux (q :: rest) i none = trueRunsAux rest (i + 1) (some i) from by
          show (if q then _ else _) = _
          rw [if_pos hqt]]
        exact ih (i + 1) (some i) hdrop' j hj hjt
          (fun s hs => by rw [← Option.some.inj hs]; exact hnone rfl)
          (fun h => Option.noConfusion h)
      · rw [show trueRunsAux (q :: rest) i none = trueRunsAux rest (i + 1) none from by
          show (if q then _ else _) = _
          rw [if_neg hqt]]
        have hij : i ≤ j := hnone rfl
        have hne : j ≠ i := by
          intro hji
          rw [hji, hq] at hjt
          exact hqt hjt
        exact ih (i + 1) none hdrop' j hj hjt (fun s hs => Option.noConfusion hs)
          (fun _ => by omega)
    | some s =>
      have hsj : s ≤ j := hsome s rfl
      by_cases hqt : q = true
      · rw [show trueRunsAux (q :: rest) i (some s) = trueRunsAux rest (i + 1) (some s) from by
          show (if q then _ else _) = _
          rw [if_pos hqt]]
        exact ih (i + 1) (some s) hdrop' j hj hjt
          (fun t ht => by rw [← Option.some.inj ht]; exact hsj)
          (fun h => Option.noConfusion h)
      · rw [show trueRunsAux (q :: rest) i (some s)
            = (s, i) :: trueRunsAux rest (i + 1) none from by
          show (if q then _ else _) = _
          rw [if_neg hqt]]
        by_cases hji : j < i
        · exact ⟨(s, i), by simp, hsj, hji⟩
        · have hne : j ≠ i := by
            intro hji'
            rw [hji', hq] at hjt
            exact hqt hjt
          obtain ⟨r, hr, h1, h2⟩ := ih (i + 1) none hdrop' j hj hjt
            (fun t ht => Option.noConfusion ht) (fun _ => by omega)
          exact ⟨r, List.mem_cons_of_mem _ hr, h1, h2⟩

/-- Every `true` flag lies inside one of the maximal runs. -/
theorem trueRuns_cover (flags : List Bool) :
    ∀ j, j < flags.length → flags.getD j false = true →
      ∃ r ∈ trueRuns flags, r.1 ≤ j ∧ j < r.2 := by
  intro j hj hjt
  exact trueRunsAux_cover flags flags 0 none rfl j hj hjt
    (fun s hs => Option.noConfusion hs) (fun _ => Nat.zero_le j)

end Splitter

namespace Splitter

open Finset

/-! ### The all-zero buffer: features and smoothing -/

theorem computeRms_zeroBuf (fl hop n : ℕ) :
    computeRms zeroAudio fl hop n = List.replicate n 0 := by
  unfold computeRms
  have h : (fun i : ℕ => frameRms zeroAudio fl (i * hop)) = fun _ : ℕ => (0 : ℝ) := by
    funext i
    exact frameRms_zero zeroAudio fl (i * hop) (fun t _ => rfl)
  rw [h, List.map_const', List.length_range]

theorem computeBw_zeroBuf (sr fl hop n : ℕ) :
    computeSpectralBandwidth zeroAudio sr fl hop n = List.replicate n 0 := by
  unfold computeSpectralBandwidth
  have h : (fun i : ℕ => frameBandwidth zeroAudio sr fl (i * hop)) = fun _ : ℕ => (0 : ℝ) := by
    funext i
    exact frameBandwidth_zeroFrame zeroAudio sr fl (i * hop) (fun t _ => rfl)
  rw [h, List.map_const', List.length_range]

theorem foldl_max_replicate_zero (m : ℕ) : (List.replicate m (0 : ℝ)).foldl max 0 = 0 := by
  induction m with
  | zero => rfl
  | succ k ih =>
    rw [List.replicate_succ, List.foldl_cons, max_self]
    exact ih

theorem npMax_replicate_zero (n : ℕ) : npMax (List.replicate n (0 : ℝ)) = 0 := by
  cases n with
  | zero => rfl
  | succ m =>
    rw [List.replicate_succ]
    show (List.replicate m (0 : ℝ)).foldl max 0 = 0
    exact foldl_max_replicate_zero m

theorem amplitudeToDb_replicate_zero (n : ℕ) :
    amplitudeToDb (List.replicate n 0) = List.replicate n (-80) := by
  unfold amplitudeToDb
  rw [if_pos (npMax_replicate_zero n), List.map_replicate]

theorem sorted_replicate (n : ℕ) (c : ℝ) : List.Sorted (· ≤ ·) (List.replicate n c) := by
  induction n with
  | zero => simp
  | succ m ih =>
    rw [List.replicate_succ, List.sorted_cons]
    exact ⟨fun b hb => le_of_eq (List.eq_of_mem_replicate hb).symm, ih⟩

theorem sortR_replicate (n : ℕ) (c : ℝ) : sortR (List.replicate n c) = List.replicate n c :=
  List.eq_of_perm_of_sorted (List.perm_insertionSort _ _)
    (List.sorted_insertionSort _ _) (sorted_replicate n c)

theorem loudMeanOf_replicate (n : ℕ) (hn : 1 ≤ n) (c : ℝ) :
    loudMeanOf (List.replicate n c) = c := by
  unfold loudMeanOf
  rw [sortR_replicate, List.length_replicate, List.drop_replicate, List.sum_replicate,
    List.length_replicate]
  have h : n - 3 * n / 4 ≠ 0 := by omega
  rw [nsmul_eq_mul, mul_comm, mul_div_assoc,
    div_self (Nat.cast_ne_zero.mpr h), mul_one]

theorem convolveFull_length (data : List ℝ) (w : ℕ) :
    (convolveFull data w).length = data.length + w - 1 := by
  unfold convolveFull
  rw [List.length_map, List.length_range]

theorem smooth_length (data : List ℝ) (w : ℕ) (hd : 1 ≤ data.length) (hw : 2 ≤ w) :
    (smooth data w).length = max data.length w := by
  unfold smooth
  rw [if_neg (by omega)]
  unfold convolveSame
  rw [List.length_take, List.length_drop, convolveFull_length]
  omega

theorem getD_replicate_zero (n : ℕ) : ∀ j, (List.replicate n (0 : ℝ)).getD j 0 = 0 := by
  induction n with
  | zero => intro j; rfl
  | succ m ih =>
    intro j
    rw [List.replicate_succ]
    cases j with
    | zero => rfl
    | succ k => exact ih k

theorem convolveFull_replicate_zero (n w : ℕ) :
    convolveFull (List.replicate n 0) w = List.replicate (n + w - 1) 0 := by
  unfold convolveFull
  have h : (fun k : ℕ => (∑ j in range (List.replicate n (0:ℝ)).length,
      if j ≤ k ∧ k < j + w then (List.replicate n (0:ℝ)).getD j 0 else 0) / (w : ℝ))
      = fun _ : ℕ => (0 : ℝ) := by
    funext k
    rw [Finset.sum_eq_zero, zero_div]
    intro j _
    rw [getD_replicate_zero n j]
    simp
  rw [h, List.map_const', List.length_range, List.length_replicate]

theorem smooth_replicate_zero (n w : ℕ) (hn : 1 ≤ n) (hw : 1 ≤ w) :
    smooth (List.replicate n 0) w = List.replicate (max n w) 0 := by
  unfold smooth
  by_cases h1 : w ≤ 1
  · rw [if_pos h1]
    congr 1
    omega
  · rw [if_neg h1]
    unfold convolveSame
    rw [convolveFull_replicate_zero, List.length_replicate, List.drop_replicate,
      List.take_replicate]
    congr 1
    omega

theorem trueRunsAux_all_false :
    ∀ (l : List Bool), (∀ b ∈ l, b = false) → ∀ i, trueRunsAux l i none = [] := by
  intro l
  induction l with
  | nil => intro _ i; rfl
  | cons q rest ih =>
    intro h i
    have hq : q = false := h q (List.mem_cons_self q rest)
    show (if q then _ else _) = _
    rw [if_neg (by rw [hq]; simp)]
    exact ih (fun b hb => h b (List.mem_cons_of_mem q hb)) (i + 1)

theorem findQuietRegions_all_false (flags : List Bool) (fts ms : ℝ)
    (h : ∀ b ∈ flags, b = false) : findQuietRegions flags fts ms = [] := by
  rw [findQuietRegions_eq_filter]
  rw [show trueRuns flags = [] from trueRunsAux_all_false flags h 0]
  rfl

end Splitter

namespace Splitter

open Finset



theorem covZ_le (n w i : ℕ) : covZ n w i ≤ w := by
  unfold covZ
  omega

theorem covZ_pos (n w i : ℕ) (hw : 2 ≤ w) (hwn : w ≤ n) (hi : i < n) :
    1 ≤ covZ n w i := by
  unfold covZ
  omega

theorem covZ_deficit (n w i : ℕ) (hw : 2 ≤ w) (hwn : w ≤ n) (hi : i < n) :
    w - covZ n w i
      = ((w - 1) - (w - 1) / 2 - i) + ((w - 1) / 2 + i + 1 - n) := by
  unfold covZ
  omega

theorem getD_replicate_lt (c : ℝ) : ∀ (n j : ℕ), j < n → (List.replicate n c).getD j 0 = c := by
  intro n
  induction n with
  | zero => intro j h; omega
  | succ m ih =>
    intro j h
    rw [List.replicate_succ]
    cases j with
    | zero => rfl
    | succ k => exact ih k (by omega)

theorem convKernelSum (n w k : ℕ) (c : ℝ) :
    (∑ j in range n, if j ≤ k ∧ k < j + w then (List.replicate n c).getD j 0 else 0)
      = ((min (k + 1) n - (k + 1 - w) : ℕ) : ℝ) * c := by
  have h1 : (∑ j in range n, if j ≤ k ∧ k < j + w then (List.replicate n c).getD j 0 else 0)
      = ∑ j in range n, if j ≤ k ∧ k < j + w then c else 0 := by
    apply Finset.sum_congr rfl
    intro j hj
    by_cases h : j ≤ k ∧ k < j + w
    · rw [if_pos h, if_pos h, getD_replicate_lt c n j (Finset.mem_range.mp hj)]
    · rw [if_neg h, if_neg h]
  rw [h1, Finset.sum_ite, Finset.sum_const_zero, add_zero, Finset.sum_const]
  have h2 : Finset.filter (fun j => j ≤ k ∧ k < j + w) (range n)
      = Finset.Ico (k + 1 - w) (min (k + 1) n) := by
    apply Finset.ext
    intro j
    simp only [Finset.mem_filter, Finset.mem_range, Finset.mem_Ico]
    omega
  rw [h2, Nat.card_Ico, nsmul_eq_mul]

theorem smooth_replicate_eval (n w : ℕ) (c : ℝ) (hw : 2 ≤ w) (hwn : w ≤ n) :
    smooth (List.replicate n c) w
      = (List.range n).map (fun i => (covZ n w i : ℝ) * c / (w : ℝ)) := by
  have hsm : smooth (List.replicate n c) w
      = ((convolveFull (List.replicate n c) w).drop ((w - 1) / 2)).take n := by
    unfold smooth convolveSame
    rw [if_neg (by omega), List.length_replicate, min_eq_right hwn, max_eq_left hwn]
  rw [hsm]
  have hcl : (convolveFull (List.replicate n c) w).length = n + w - 1 := by
    rw [convolveFull_length, List.length_replicate]
  apply List.ext_getElem
  · rw [List.length_take, List.length_drop, hcl, List.length_map, List.length_range]
    omega
  intro i h1 h2
  rw [List.getElem_take, List.getElem_drop]
  have hi : i < n := by
    rw [List.length_map, List.length_range] at h2
    exact h2
  simp only [convolveFull, List.length_replicate, List.getElem_map, List.getElem_range]
  rw [convKernelSum]
  unfold covZ
  ring

end Splitter

namespace Splitter

open Finset

theorem ramp_sum_eq (m b : ℕ) (hb : b + 1 ≤ m) :
    (∑ i in range m, (b - i)) * 2 = (b + 1) * b := by
  have h1 : (∑ i in range m, (b - i)) = ∑ i in range (b + 1), (b - i) := by
    symm
    apply Finset.sum_subset (Finset.range_subset.mpr hb)
    intro x hx hnx
    rw [Finset.mem_range] at hx hnx
    omega
  have h2 : (∑ i in range (b + 1), (b - i)) = ∑ i in range (b + 1), ((b + 1) - 1 - i) := by
    apply Finset.sum_congr rfl
    intro i hi
    omega
  have h3 : (∑ i in range (b + 1), ((b + 1) - 1 - i)) = ∑ i in range (b + 1), i :=
    Finset.sum_range_reflect (fun i => i) (b + 1)
  rw [h1, h2, h3, Finset.sum_range_id_mul_two, Nat.add_sub_cancel]

theorem deficit_sum_le (n w : ℕ) (hw : 2 ≤ w) (hwn : w ≤ n) :
    4 * (∑ i in range n, (w - covZ n w i)) ≤ w * w := by
  obtain ⟨o, ho⟩ : ∃ o, (w - 1) / 2 = o := ⟨_, rfl⟩
  obtain ⟨a, ha⟩ : ∃ a, (w - 1) - o = a := ⟨_, rfl⟩
  have hsum : (∑ i in range n, (w - covZ n w i))
      = (∑ i in range n, (a - i)) + (∑ i in range n, (o + i + 1 - n)) := by
    rw [← Finset.sum_add_distrib]
    apply Finset.sum_congr rfl
    intro i hi
    rw [covZ_deficit n w i hw hwn (Finset.mem_range.mp hi), ho, ha]
  have hright : (∑ i in range n, (o + i + 1 - n)) = ∑ i in range n, (o - i) := by
    rw [← Finset.sum_range_reflect (fun i => o + i + 1 - n) n]
    apply Finset.sum_congr rfl
    intro i hi
    rw [Finset.mem_range] at hi
    omega
  have hA : (∑ i in range n, (a - i)) * 2 = (a + 1) * a := ramp_sum_eq n a (by omega)
  have hB : (∑ i in range n, (o - i)) * 2 = (o + 1) * o := ramp_sum_eq n o (by omega)
  rw [hsum, hright]
  have hparity : w = 2 * o + 1 ∧ a = o ∨ w = 2 * o + 2 ∧ a = o + 1 := by omega
  rcases hparity with ⟨hw', ha'⟩ | ⟨hw', ha'⟩ <;> subst ha' <;> rw [hw'] <;>
    nlinarith [hA, hB]

end Splitter

namespace Splitter

open Finset

theorem sum_map_range (f : ℕ → ℝ) (n : ℕ) :
    ((List.range n).map f).sum = ∑ i in range n, f i := by
  induction n with
  | zero => simp
  | succ m ih =>
    rw [List.range_succ, List.map_append, List.sum_append, Finset.sum_range_succ, ih]
    simp

theorem sum_ge_length_mul (l : List ℝ) (c : ℝ) (h : ∀ x ∈ l, c ≤ x) :
    (l.length : ℝ) * c ≤ l.sum := by
  induction l with
  | nil => simp
  | cons x xs ih =>
    simp only [List.length_cons, List.sum_cons, Nat.cast_succ]
    have h1 := h x (by simp)
    have h2 := ih (fun y hy => h y (by simp [hy]))
    nlinarith

theorem natCast_sub_le (a b : ℕ) : (a : ℝ) - (b : ℝ) ≤ ((a - b : ℕ) : ℝ) := by
  rcases le_or_lt b a with h | h
  · rw [Nat.cast_sub h]
  · have h1 : a - b = 0 := by omega
    rw [h1]
    have h2 : (a : ℝ) ≤ (b : ℝ) := Nat.cast_le.mpr (by omega)
    simp
    linarith

theorem loudMeanOf_le (l : List ℝ) (c : ℝ) (hl : 1 ≤ l.length) (hc : ∀ x ∈ l, c ≤ x) :
    loudMeanOf l
      ≤ (l.sum - c * ((3 * l.length / 4 : ℕ) : ℝ))
        / ((l.length - 3 * l.length / 4 : ℕ) : ℝ) := by
  unfold loudMeanOf
  have hslen : (sortR l).length = l.length := List.length_insertionSort _ l
  have hk : 3 * l.length / 4 ≤ l.length := by omega
  have htl : ((sortR l).take (3 * l.length / 4)).length = 3 * l.length / 4 := by
    rw [List.length_take, hslen]
    omega
  have hdl : ((sortR l).drop (3 * l.length / 4)).length = l.length - 3 * l.length / 4 := by
    rw [List.length_drop, hslen]
  have hsum : (sortR l).sum = l.sum := (List.perm_insertionSort _ l).sum_eq
  have hsplit : ((sortR l).take (3 * l.length / 4)).sum
      + ((sortR l).drop (3 * l.length / 4)).sum = l.sum := by
    rw [← hsum, ← List.sum_append, List.take_append_drop]
  have htake : (((sortR l).take (3 * l.length / 4)).length : ℝ) * c
      ≤ ((sortR l).take (3 * l.length / 4)).sum := by
    apply sum_ge_length_mul
    intro x hx
    apply hc
    have hx1 : x ∈ sortR l := List.mem_of_mem_take hx
    exact (List.perm_insertionSort _ l).mem_iff.mp hx1
  rw [htl] at htake
  have hq : (0 : ℝ) < ((l.length - 3 * l.length / 4 : ℕ) : ℝ) := by
    have : 1 ≤ l.length - 3 * l.length / 4 := by omega
    exact_mod_cast Nat.lt_of_lt_of_le Nat.zero_lt_one this
  rw [hdl, div_le_div_iff hq hq]
  have hdrop_le : ((sortR l).drop (3 * l.length / 4)).sum
      ≤ l.sum - c * ((3 * l.length / 4 : ℕ) : ℝ) := by
    linarith
  nlinarith [hdrop_le, hq]

end Splitter

namespace Splitter

open Finset

theorem notPlaying_flag_true (es bs : List ℝ) (et bt : ℝ) (i : ℕ)
    (h1 : i < es.length) (h2 : i < bs.length)
    (hf : (notPlaying es bs et bt).getD i false = true) :
    es[i] < et ∨ bs[i] < bt := by
  unfold notPlaying at hf
  rw [List.getD_eq_getElem _ false (by rw [List.length_zipWith]; omega)] at hf
  rw [List.getElem_zipWith] at hf
  rcases Bool.or_eq_true_iff.mp hf with h | h
  · exact Or.inl (of_decide_eq_true h)
  · exact Or.inr (of_decide_eq_true h)

set_option maxHeartbeats 1000000

/-- On an all-silent signal, no quiet run survives the 5-second duration
filter: interior frames sit exactly at the `-80` floor while the zero-padded
moving average lifts the edge frames, so the adaptive threshold (top-quarter
mean minus 15) either classifies no frame as quiet, or confines quiet frames
to a band too short for the filter. -/
theorem no_retained_energy (n w sr hop : ℕ) (ms : ℝ) (es : List ℝ) (lm : ℝ)
    (hes : es = (List.range n).map (fun i => (covZ n w i : ℝ) * (-80) / (w : ℝ)))
    (hlm : lm = loudMeanOf es)
    (hn : 1 ≤ n) (hw : 2 ≤ w) (hwn : w ≤ n) (hsr : 1 ≤ sr) (hhop : 1 ≤ hop)
    (hwhop : w * hop ≤ sr) (hms : 5 ≤ ms) :
    ∀ r ∈ trueRuns (notPlaying es (List.replicate n 0) (lm - 15) 0),
      ¬ ms ≤ ((r.2 - r.1 : ℕ) : ℝ) * ((hop : ℝ) / (sr : ℝ)) := by
  intro r hr hle
  have hwR : (0 : ℝ) < w := Nat.cast_pos.mpr (by omega)
  have hsrR : (0 : ℝ) < sr := Nat.cast_pos.mpr (by omega)
  have hhopR : (0 : ℝ) < hop := Nat.cast_pos.mpr (by omega)
  have hw2R : (2 : ℝ) ≤ (w : ℝ) := by exact_mod_cast hw
  have heslen : es.length = n := by rw [hes, List.length_map, List.length_range]
  have hflen : (notPlaying es (List.replicate n 0) (lm - 15) 0).length = n := by
    unfold notPlaying
    rw [List.length_zipWith, heslen, List.length_replicate, min_self]
  have hspec := (trueRuns_spec (notPlaying es (List.replicate n 0) (lm - 15) 0)).1 r hr
  have hr12 : r.1 < r.2 := hspec.1
  have hr2n : r.2 ≤ n := hflen ▸ hspec.2.1
  have hcontent := hspec.2.2.1
  have hes_getD : ∀ (i : ℕ), i < n → es.getD i 0 = (covZ n w i : ℝ) * (-80) / (w : ℝ) := by
    intro i hi
    have hlen2 : i < ((List.range n).map
        (fun j => (covZ n w j : ℝ) * (-80) / (w : ℝ))).length := by
      rw [List.length_map, List.length_range]
      exact hi
    rw [hes, List.getD_eq_getElem _ 0 hlen2, List.getElem_map, List.getElem_range]
  have hquiet : ∀ i, r.1 ≤ i → i < r.2 → es.getD i 0 < lm - 15 := by
    intro i hi1 hi2
    have hin : i < n := by omega
    have hflag := hcontent i hi1 hi2
    have hor := notPlaying_flag_true es (List.replicate n 0) (lm - 15) 0 i
      (by rw [heslen]; exact hin) (by rw [List.length_replicate]; exact hin) hflag
    rcases hor with h | h
    · rw [List.getD_eq_getElem es 0 (by rw [heslen]; exact hin)]
      exact h
    · rw [List.getElem_replicate] at h
      linarith
  have hcov_le : ∀ i, (covZ n w i : ℝ) ≤ (w : ℝ) := fun i => Nat.cast_le.mpr (covZ_le n w i)
  have hes_mem_ge : ∀ x ∈ es, -80 ≤ x := by
    intro x hx
    rw [hes] at hx
    obtain ⟨i, hi, hxi⟩ := List.mem_map.mp hx
    rw [← hxi]
    show -80 ≤ (covZ n w i : ℝ) * (-80) / (w : ℝ)
    rw [le_div_iff hwR]
    have h0 : (0 : ℝ) ≤ (covZ n w i : ℝ) := Nat.cast_nonneg _
    nlinarith [hcov_le i]
  obtain ⟨SN, hSN⟩ : ∃ S, (∑ i in range n, (w - covZ n w i)) = S := ⟨_, rfl⟩
  have hS4 : 4 * SN ≤ w * w := hSN ▸ deficit_sum_le n w hw hwn
  have hcov_sum : (∑ i in range n, covZ n w i) + SN = n * w := by
    rw [← hSN, ← Finset.sum_add_distrib]
    have h1 : ∀ i ∈ range n, covZ n w i + (w - covZ n w i) = w := by
      intro i _
      have := covZ_le n w i
      omega
    rw [Finset.sum_congr rfl h1, Finset.sum_const, Finset.card_range, smul_eq_mul]
  have hessum : es.sum = -80 * (n : ℝ) + 80 * (SN : ℝ) / (w : ℝ) := by
    rw [hes, sum_map_range]
    have h1 : (∑ i in range n, (covZ n w i : ℝ) * (-80) / (w : ℝ))
        = (∑ i in range n, (covZ n w i : ℝ)) * (-80) / (w : ℝ) := by
      rw [← Finset.sum_div, ← Finset.sum_mul]
    rw [h1]
    have h2 : (∑ i in range n, (covZ n w i : ℝ)) = ((n * w - SN : ℕ) : ℝ) := by
      rw [← Nat.cast_sum]
      congr 1
      omega
    rw [h2, Nat.cast_sub (by omega)]
    push_cast
    field_simp
    ring
  obtain ⟨q, hq_def⟩ : ∃ q, n - 3 * n / 4 = q := ⟨_, rfl⟩
  have hq1 : 1 ≤ q := by omega
  have hqR : (0 : ℝ) < (q : ℝ) := Nat.cast_pos.mpr hq1
  have h4q : n ≤ 4 * q := by omega
  obtain ⟨DQ, hDQ⟩ : ∃ d, (SN : ℝ) / (q : ℝ) = d := ⟨_, rfl⟩
  have hlm_le : lm ≤ -80 + 80 * DQ / (w : ℝ) := by
    have h := loudMeanOf_le es (-80) (by rw [heslen]; omega) hes_mem_ge
    rw [heslen, hessum] at h
    have heq : (-80 * (n : ℝ) + 80 * (SN : ℝ) / (w : ℝ)
          - (-80) * ((3 * n / 4 : ℕ) : ℝ)) / ((n - 3 * n / 4 : ℕ) : ℝ)
        = -80 + 80 * DQ / (w : ℝ) := by
      rw [← hDQ, hq_def]
      have hnk : ((3 * n / 4 : ℕ) : ℝ) = (n : ℝ) - (q : ℝ) := by
        rw [← hq_def, Nat.cast_sub (by omega)]
        ring
      rw [hnk]
      field_simp
      ring
    rw [heq] at h
    rw [hlm]
    exact h
  have hquiet_d : ∀ i, r.1 ≤ i → i < r.2 →
      ((w - covZ n w i : ℕ) : ℝ) < DQ - 3 * (w : ℝ) / 16 := by
    intro i hi1 hi2
    have hin : i < n := by omega
    have hvi := hquiet i hi1 hi2
    have hcovd : (covZ n w i : ℝ) = (w : ℝ) - ((w - covZ n w i : ℕ) : ℝ) := by
      rw [Nat.cast_sub (covZ_le n w i)]
      ring
    have hveq : es.getD i 0 = -80 + 80 * ((w - covZ n w i : ℕ) : ℝ) / (w : ℝ) := by
      rw [hes_getD i hin, hcovd]
      field_simp
      ring
    rw [hveq] at hvi
    have hstep : 80 * ((w - covZ n w i : ℕ) : ℝ) / (w : ℝ)
        < 80 * DQ / (w : ℝ) - 15 := by
      linarith
    have hmul := mul_lt_mul_of_pos_right hstep hwR
    rw [div_mul_cancel₀ _ (ne_of_gt hwR), sub_mul, div_mul_cancel₀ _ (ne_of_gt hwR)] at hmul
    linarith
  have hd1 := hquiet_d r.1 (le_refl _) hr12
  have hd1R : (0 : ℝ) ≤ ((w - covZ n w r.1 : ℕ) : ℝ) := Nat.cast_nonneg _
  have heps_pos : (0 : ℝ) < DQ - 3 * (w : ℝ) / 16 := lt_of_le_of_lt hd1R hd1
  obtain ⟨o, ho⟩ : ∃ o, (w - 1) / 2 = o := ⟨_, rfl⟩
  have hw1R : ((w - 1 : ℕ) : ℝ) = (w : ℝ) - 1 := by
    rw [Nat.cast_sub (by omega)]
    norm_num
  have hdef_ge_left : ∀ i, i < n →
      ((w : ℝ) - 1 - (o : ℝ)) - (i : ℝ) ≤ ((w - covZ n w i : ℕ) : ℝ) := by
    intro i hin
    have h1 : (w - 1) - o - i ≤ w - covZ n w i := by
      rw [covZ_deficit n w i hw hwn hin, ho]
      omega
    have c2 := natCast_sub_le (w - 1) o
    rw [hw1R] at c2
    have c3 := natCast_sub_le ((w - 1) - o) i
    have c4 : (((w - 1) - o - i : ℕ) : ℝ) ≤ ((w - covZ n w i : ℕ) : ℝ) :=
      Nat.cast_le.mpr h1
    linarith
  have hdef_ge_right : ∀ i, i < n →
      (o : ℝ) + (i : ℝ) + 1 - (n : ℝ) ≤ ((w - covZ n w i : ℕ) : ℝ) := by
    intro i hin
    have h1 : o + i + 1 - n ≤ w - covZ n w i := by
      rw [covZ_deficit n w i hw hwn hin, ho]
      omega
    have c1 := natCast_sub_le (o + i + 1) n
    push_cast at c1
    have c2 : ((o + i + 1 - n : ℕ) : ℝ) ≤ ((w - covZ n w i : ℕ) : ℝ) :=
      Nat.cast_le.mpr h1
    linarith
  have hquiet_last := hquiet_d (r.2 - 1) (by omega) (by omega)
  have hleft := hdef_ge_left r.1 (by omega)
  have hright := hdef_ge_right (r.2 - 1) (by omega)
  have hr21R : ((r.2 - 1 : ℕ) : ℝ) = (r.2 : ℝ) - 1 := by
    rw [Nat.cast_sub (by omega)]
    norm_num
  have hLR : ((r.2 - r.1 : ℕ) : ℝ) = (r.2 : ℝ) - (r.1 : ℝ) := Nat.cast_sub (by omega)
  have hL5w : 5 * (w : ℝ) ≤ ((r.2 - r.1 : ℕ) : ℝ) := by
    have h1 : 5 ≤ ((r.2 - r.1 : ℕ) : ℝ) * ((hop : ℝ) / (sr : ℝ)) := le_trans hms hle
    have h2 := mul_le_mul_of_nonneg_right h1 (le_of_lt hsrR)
    rw [mul_assoc, div_mul_cancel₀ _ (ne_of_gt hsrR)] at h2
    have h3 : (w : ℝ) * (hop : ℝ) ≤ (sr : ℝ) := by exact_mod_cast hwhop
    nlinarith [h2, h3, hhopR]
  have hLn : ((r.2 - r.1 : ℕ) : ℝ) ≤ (n : ℝ) := Nat.cast_le.mpr (by omega)
  have hq5w : 5 * (w : ℝ) / 4 ≤ (q : ℝ) := by
    have h1 : (n : ℝ) ≤ 4 * (q : ℝ) := by exact_mod_cast h4q
    linarith [le_trans hL5w hLn]
  have hSR : (SN : ℝ) ≤ (w : ℝ) * (w : ℝ) / 4 := by
    have h1 : ((4 * SN : ℕ) : ℝ) ≤ ((w * w : ℕ) : ℝ) := Nat.cast_le.mpr hS4
    push_cast at h1
    linarith
  have heps_le : DQ - 3 * (w : ℝ) / 16 ≤ (w : ℝ) / 80 := by
    have h1 : DQ ≤ ((w : ℝ) * (w : ℝ) / 4) / (q : ℝ) := by
      rw [← hDQ]
      exact (div_le_div_right hqR).mpr hSR
    have h2 : ((w : ℝ) * (w : ℝ) / 4) / (q : ℝ)
        ≤ ((w : ℝ) * (w : ℝ) / 4) / (5 * (w : ℝ) / 4) := by
      rw [div_le_div_iff hqR (by positivity)]
      exact mul_le_mul_of_nonneg_left hq5w (by positivity)
    have h3 : ((w : ℝ) * (w : ℝ) / 4) / (5 * (w : ℝ) / 4) = (w : ℝ) / 5 := by
      field_simp
      ring
    linarith
  have hq_small : (q : ℝ) < 4 * (w : ℝ) / 3 := by
    have h1 : 3 * (w : ℝ) / 16 < DQ := by linarith
    rw [← hDQ] at h1
    have h2 : 3 * (w : ℝ) / 16 * (q : ℝ) < (SN : ℝ) := (lt_div_iff hqR).mp h1
    nlinarith [hSR, hwR]
  have hn_small : (n : ℝ) < 16 * (w : ℝ) / 3 := by
    have h1 : (n : ℝ) ≤ 4 * (q : ℝ) := by exact_mod_cast h4q
    linarith
  rw [hr21R] at hright
  rw [hLR] at hL5w
  linarith [hleft, hright, hd1, hquiet_last, heps_le, hn_small, hL5w, hw2R]

end Splitter

namespace Splitter

/-- On the all-zero buffer's features (`-80` dB everywhere, zero bandwidth),
the pipeline retains no quiet region when the minimum silence duration is at
least the default 5 seconds. -/
theorem zeroCore_regions (n sr hop total : ℕ) (ms msong : ℝ) (hn : 1 ≤ n)
    (hsr : 1 ≤ sr) (hhop : 1 ≤ hop) (hms : 5 ≤ ms) :
    (detectCore (List.replicate n (-80)) (List.replicate n 0)
      sr hop total ms msong).quiet_regions = [] := by
  show findQuietRegions
      (notPlaying (smooth (List.replicate n (-80)) (smoothFrames sr hop))
        (smooth (List.replicate n 0) (smoothFrames sr hop))
        (loudMeanOf (smooth (List.replicate n (-80)) (smoothFrames sr hop)) - 15)
        (loudMeanOf (smooth (List.replicate n 0) (smoothFrames sr hop)) * (2 / 5)))
      ((hop : ℝ) / (sr : ℝ)) ms = []
  have hw1 : 1 ≤ smoothFrames sr hop := le_max_left 1 _
  have hbs : smooth (List.replicate n (0 : ℝ)) (smoothFrames sr hop)
      = List.replicate (max n (smoothFrames sr hop)) 0 := smooth_replicate_zero n _ hn hw1
  have hbt : loudMeanOf (smooth (List.replicate n (0 : ℝ)) (smoothFrames sr hop)) * (2 / 5)
      = 0 := by
    rw [hbs, loudMeanOf_replicate _ (by omega) 0, zero_mul]
  rw [hbt, hbs]
  by_cases hw2 : smoothFrames sr hop ≤ 1
  · have hes : smooth (List.replicate n (-80 : ℝ)) (smoothFrames sr hop)
        = List.replicate n (-80) := by
      unfold smooth
      rw [if_pos hw2]
    have het : loudMeanOf (smooth (List.replicate n (-80 : ℝ)) (smoothFrames sr hop)) = -80 := by
      rw [hes]
      exact loudMeanOf_replicate n hn (-80)
    rw [het, hes]
    apply findQuietRegions_all_false
    intro b hb
    unfold notPlaying at hb
    rw [show max n (smoothFrames sr hop) = n from by omega] at hb
    rw [List.zipWith_replicate] at hb
    have hbeq := List.eq_of_mem_replicate hb
    rw [hbeq]
    norm_num
  · have hw2' : 2 ≤ smoothFrames sr hop := by omega
    have hwsh : smoothFrames sr hop = sr / hop := by
      unfold smoothFrames at *
      omega
    have hwhop : smoothFrames sr hop * hop ≤ sr := by
      rw [hwsh]
      exact Nat.div_mul_le_self sr hop
    rw [findQuietRegions_eq_filter]
    apply List.filter_eq_nil.mpr
    intro r hr
    simp only [decide_eq_true_eq]
    by_cases hwn : smoothFrames sr hop ≤ n
    · rw [show max n (smoothFrames sr hop) = n from by omega] at hr
      exact no_retained_energy n (smoothFrames sr hop) sr hop ms
        (smooth (List.replicate n (-80)) (smoothFrames sr hop))
        (loudMeanOf (smooth (List.replicate n (-80)) (smoothFrames sr hop)))
        (smooth_replicate_eval n _ (-80) hw2' hwn) rfl
        hn hw2' hwn hsr hhop hwhop hms r hr
    · intro hcon
      have hspec := (trueRuns_spec _).1 r hr
      have hlen : (notPlaying (smooth (List.replicate n (-80 : ℝ)) (smoothFrames sr hop))
          (List.replicate (max n (smoothFrames sr hop)) 0)
          (loudMeanOf (smooth (List.replicate n (-80 : ℝ)) (smoothFrames sr hop)) - 15)
          0).length = max n (smoothFrames sr hop) := by
        unfold notPlaying
        rw [List.length_zipWith, List.length_replicate,
          smooth_length _ _ (by rw [List.length_replicate]; omega) hw2',
          List.length_replicate, min_self]
      have hr2 : r.2 ≤ max n (smoothFrames sr hop) := hlen ▸ hspec.2.1
      have hr1 : r.1 < r.2 := hspec.1
      have hLw : r.2 - r.1 ≤ smoothFrames sr hop := by omega
      have hsrR : (0 : ℝ) < sr := Nat.cast_pos.mpr (by omega)
      have hwhR : (smoothFrames sr hop : ℝ) * (hop : ℝ) ≤ (sr : ℝ) := by exact_mod_cast hwhop
      have hLR : ((r.2 - r.1 : ℕ) : ℝ) ≤ (smoothFrames sr hop : ℝ) := Nat.cast_le.mpr hLw
      have hftsnn : (0 : ℝ) ≤ (hop : ℝ) / (sr : ℝ) := by positivity
      have h1 : ((r.2 - r.1 : ℕ) : ℝ) * ((hop : ℝ) / (sr : ℝ))
          ≤ (smoothFrames sr hop : ℝ) * ((hop : ℝ) / (sr : ℝ)) :=
        mul_le_mul_of_nonneg_right hLR hftsnn
      have h2 : (smoothFrames sr hop : ℝ) * ((hop : ℝ) / (sr : ℝ)) ≤ 1 := by
        rw [← mul_div_assoc, div_le_one hsrR]
        exact hwhR
      linarith

end Splitter

namespace Splitter

/-- When no quiet region is retained, the returned list is a single segment
spanning the whole duration. -/
theorem detectCore_no_regions (rmsDb bwRaw : List ℝ) (sr hop total : ℕ) (ms msong : ℝ)
    (hreg : (detectCore rmsDb bwRaw sr hop total ms msong).quiet_regions = []) :
    (detectCore rmsDb bwRaw sr hop total ms msong).segments
      = [⟨0, 0, (total : ℝ) / (sr : ℝ), (total : ℝ) / (sr : ℝ)⟩] := by
  rw [detectCore_segments_eq, hreg]
  norm_num [splitSamples, mkBoundaries, mkSegments, mergePass, mergeStep, reindex,
    List.enum, List.enumFrom, List.zip, List.zipWith, Segment.mk.injEq]

end Splitter

namespace Splitter

/-! ### The claims -/

/-- C1 (amended).  For every audio buffer and configuration, the list returned
by `detect_splits` tiles `[0, total_duration)`: it is non-empty, the first
segment starts at `0`, the last segment ends at `len(audio)/sr`, consecutive
segments are contiguous (`end_sec = start_sec` of the successor), every
duration equals `end_sec - start_sec`, and the `index` fields are the dense
ascending sequence `0, 1, 2, ...`.  The original claim's strict inequality
`start_sec < end_sec` is dropped: it can fail (see the counterexample, where a
degenerate first segment has `start_sec = end_sec`). -/
theorem C1_tiling (audio : ℕ → ℝ) (total sr : ℕ) (ms msong : ℝ) (fl hop : ℕ) :
    detectSplits audio total sr ms msong fl hop ≠ [] ∧
    (∀ x r1, detectSplits audio total sr ms msong fl hop = x :: r1 → x.start_sec = 0) ∧
    lastEnd 0 (detectSplits audio total sr ms msong fl hop) = (total : ℝ) / (sr : ℝ) ∧
    List.Chain' Contig (detectSplits audio total sr ms msong fl hop) ∧
    (∀ s ∈ detectSplits audio total sr ms msong fl hop,
      s.duration_sec = s.end_sec - s.start_sec) ∧
    (detectSplits audio total sr ms msong fl hop).map Segment.index
      = List.range (detectSplits audio total sr ms msong fl hop).length := by
  have h := backHalf_basic ((detectSplitsDiag audio total sr ms msong fl hop).quiet_regions)
    hop total sr msong (detectSplits audio total sr ms msong fl hop) rfl
  exact ⟨h.1, h.2.2.2.1, h.2.2.2.2.1, h.2.2.1, h.2.1, h.2.2.2.2.2⟩

/-- C1 counterexample: on the input `exC1` the returned list contains a
degenerate segment with `start_sec = end_sec = 0`, refuting the claimed strict
inequality `start_sec < end_sec`. -/
theorem C1_strict_counterexample :
    ∃ s ∈ detectSplits exC1 12272 409 5 30 4096 2048, ¬ s.start_sec < s.end_sec := by
  rw [detectEval_exC1]
  exact ⟨⟨0, 0, 0, 0⟩, by simp, fun h => lt_irrefl (0 : ℝ) h⟩

/-- C2 (amended).  If every split sample stays within the buffer (which the
zero-padded smoothing can violate when the window exceeds the frame count),
then after the merge pass every returned segment except possibly the first has
`duration_sec ≥ min_song_duration`. -/
theorem C2_min_length (audio : ℕ → ℝ) (total sr : ℕ) (ms msong : ℝ) (fl hop : ℕ)
    (hsp : ∀ x ∈ splitSamples
        ((detectSplitsDiag audio total sr ms msong fl hop).quiet_regions) hop, x ≤ total) :
    ∀ s ∈ (detectSplits audio total sr ms msong fl hop).tail, msong ≤ s.duration_sec := by
  have hpw : List.Pairwise (· ≤ ·) (splitSamples
      ((detectSplitsDiag audio total sr ms msong fl hop).quiet_regions) hop) :=
    splits_pairwise _ _ _ hop
  have hmono := boundaries_chain _ total hsp hpw
  exact (backHalf_facts ((detectSplitsDiag audio total sr ms msong fl hop).quiet_regions)
    hop total sr msong hmono (detectSplits audio total sr ms msong fl hop) rfl).2.2.2.2.1

/-- C2 counterexample: on the input `exC2` (overshooting split sample
`22528 > 16384`), the second returned segment has duration `1/4`, below
`min_song_duration = 1/2`. -/
theorem C2_shrink_counterexample :
    ∃ s ∈ (detectSplits exC2 16384 24576 (1 / 12) (1 / 2) 4096 2048).tail,
      s.duration_sec < 1 / 2 := by
  rw [detectEval_exC2]
  exact ⟨⟨1, 5 / 12, 2 / 3, 1 / 4⟩, by simp, by norm_num⟩

theorem C2_min_length_witness :
    (∀ x ∈ splitSamples
        ((detectSplitsDiag zeroAudio 4096 2048 5 30 4096 2048).quiet_regions) 2048,
      x ≤ 4096) ∧
    ∀ s ∈ (detectSplits zeroAudio 4096 2048 5 30 4096 2048).tail,
      (30 : ℝ) ≤ s.duration_sec := by
  have hsp : ∀ x ∈ splitSamples
      ((detectSplitsDiag zeroAudio 4096 2048 5 30 4096 2048).quiet_regions) 2048,
      x ≤ 4096 := by
    rw [show (detectSplitsDiag zeroAudio 4096 2048 5 30 4096 2048).quiet_regions = []
      from by rw [diagEval_zero]]
    simp [splitSamples]
  exact ⟨hsp, C2_min_length zeroAudio 4096 2048 5 30 4096 2048 hsp⟩

/-- C3 (amended).  On a buffer shorter than one frame the pipeline does fail
rather than return a result, but with a numpy error (negative dimensions in
`np.empty`, or a zero-size reduction in `np.max`), never with
`InvalidInputError`: no such class exists in the source. -/
theorem C3_short_buffer_error (audio : ℕ → ℝ) (total sr : ℕ) (ms msong : ℝ) (fl hop : ℕ)
    (h : nFramesZ total fl hop ≤ 0) :
    ∃ e, detectSplitsE audio total sr ms msong fl hop = .error e
      ∧ e ≠ SplitError.invalidInput := by
  unfold detectSplitsE
  rcases lt_or_eq_of_le h with hlt | heq
  · refine ⟨.numpyNegativeDimensions, ?_, by decide⟩
    rw [if_pos hlt]
  · refine ⟨.numpyZeroSizeReduction, ?_, by decide⟩
    rw [if_neg (by omega), if_pos heq]

/-- C3 counterexample: the empty buffer fails with the negative-dimensions
numpy error, which is not the `InvalidInputError` the specification names. -/
theorem C3_error_kind_counterexample :
    detectSplitsE zeroAudio 0 44100 5 30 4096 2048
      = .error SplitError.numpyNegativeDimensions ∧
    SplitError.numpyNegativeDimensions ≠ SplitError.invalidInput := by
  constructor
  · unfold detectSplitsE
    rw [if_pos (by decide)]
  · decide

theorem C3_short_buffer_error_witness :
    nFramesZ 0 4096 2048 ≤ 0 ∧
    ∃ e, detectSplitsE zeroAudio 0 44100 5 30 4096 2048 = .error e
      ∧ e ≠ SplitError.invalidInput :=
  ⟨by decide, C3_short_buffer_error zeroAudio 0 44100 5 30 4096 2048 (by decide)⟩

/-- C4.  The merge pass is a single left-to-right scan equal to the
specification's wording (`mergePassSpec`): a provisional segment is absorbed
into the previously accepted segment iff the output is non-empty and its
duration is below `min_song_duration`, and appended unchanged otherwise;
accepted segments other than the last are never modified (the scan is
prefix-stable), and the first provisional segment always heads the output with
its `start_sec` and original `index` intact. -/
theorem C4_merge_scan (msong : ℝ) :
    (∀ segs, mergePass msong segs = mergePassSpec msong segs) ∧
    (∀ acc seg, (mergeStep msong acc seg).take (acc.length - 1)
      = acc.take (acc.length - 1)) ∧
    (∀ x segs, ∃ h rest, mergePass msong (x :: segs) = h :: rest ∧
      h.start_sec = x.start_sec ∧ h.index = x.index) := by
  refine ⟨mergePass_eq_spec msong, mergeStep_prefix_stable msong, ?_⟩
  intro x segs
  rw [mergePass_cons]
  exact mergeRun_head msong x segs

end Splitter

namespace Splitter

/-- C5.  A frame is classified "not playing" iff it is in range and its
smoothed energy is below `energy_thresh` or its smoothed bandwidth is below
`bw_thresh`; the retained quiet regions are exactly the maximal runs of
not-playing frames (non-empty, in range, all-true content, flanked by list
boundaries or playing frames — including a run still open at the final frame,
closed at end-of-buffer) that pass the duration filter; they are in frame
order, pairwise disjoint, and every not-playing frame lies in some maximal
run. -/
theorem C5_quiet_detection (es bs : List ℝ) (et bt fts ms : ℝ) :
    (∀ i : ℕ, (notPlaying es bs et bt).getD i false = true
      ↔ i < es.length ∧ i < bs.length ∧ (es.getD i 0 < et ∨ bs.getD i 0 < bt)) ∧
    findQuietRegions (notPlaying es bs et bt) fts ms
      = (trueRuns (notPlaying es bs et bt)).filter
          (fun r => decide (ms ≤ ((r.2 - r.1 : ℕ) : ℝ) * fts)) ∧
    (∀ r ∈ findQuietRegions (notPlaying es bs et bt) fts ms,
      r.1 < r.2 ∧ r.2 ≤ (notPlaying es bs et bt).length
        ∧ ms ≤ ((r.2 - r.1 : ℕ) : ℝ) * fts
        ∧ (∀ j, r.1 ≤ j → j < r.2 → (notPlaying es bs et bt).getD j false = true)
        ∧ (r.1 = 0 ∨ (notPlaying es bs et bt).getD (r.1 - 1) false = false)
        ∧ (r.2 = (notPlaying es bs et bt).length
            ∨ (notPlaying es bs et bt).getD r.2 false = false)) ∧
    List.Pairwise (fun r r' : ℕ × ℕ => r.2 ≤ r'.1)
      (findQuietRegions (notPlaying es bs et bt) fts ms) ∧
    (∀ j, j < (notPlaying es bs et bt).length
      → (notPlaying es bs et bt).getD j false = true
      → ∃ r ∈ trueRuns (notPlaying es bs et bt), r.1 ≤ j ∧ j < r.2) := by
  refine ⟨?_, findQuietRegions_eq_filter _ fts ms, ?_, (findQuietRegions_spec _ fts ms).2,
    trueRuns_cover _⟩
  · intro i
    constructor
    · intro h
      by_cases hlen : i < (notPlaying es bs et bt).length
      · have hlen2 : i < min es.length bs.length := by
          unfold notPlaying at hlen
          rw [List.length_zipWith] at hlen
          exact hlen
        have h1 : i < es.length := by omega
        have h2 : i < bs.length := by omega
        have hor := notPlaying_flag_true es bs et bt i h1 h2 h
        refine ⟨h1, h2, ?_⟩
        rw [List.getD_eq_getElem es 0 h1, List.getD_eq_getElem bs 0 h2]
        exact hor
      · rw [List.getD_eq_default _ _ (by omega)] at h
        exact absurd h (by simp)
    · rintro ⟨h1, h2, hor⟩
      have hlen : i < (notPlaying es bs et bt).length := by
        unfold notPlaying
        rw [List.length_zipWith]
        omega
      rw [List.getD_eq_getElem _ false hlen]
      simp only [notPlaying, List.getElem_zipWith]
      rw [List.getD_eq_getElem es 0 h1, List.getD_eq_getElem bs 0 h2] at hor
      rcases hor with h | h <;> simp [h]
  · intro r hr
    have hr2 := hr
    rw [findQuietRegions_eq_filter] at hr2
    have hmem := List.mem_of_mem_filter hr2
    have hdur := List.of_mem_filter hr2
    rw [decide_eq_true_eq] at hdur
    have hspec := (trueRuns_spec (notPlaying es bs et bt)).1 r hmem
    exact ⟨hspec.1, hspec.2.1, hdur, hspec.2.2.1, hspec.2.2.2.1, hspec.2.2.2.2⟩

/-- C6.  The adaptive thresholds are computed from sorted feature sequences
exactly as specified: for any sorted permutation of the smoothed energy-dB
sequence the energy threshold is the mean of its top quarter (the slice from
index `3n/4`) minus 15 dB, and for any sorted permutation of the smoothed
bandwidth sequence the bandwidth threshold is 0.4 (= 2/5) times the mean of
its top quarter. -/
theorem C6_thresholds (rmsDb bwRaw : List ℝ) (sr hop total : ℕ) (ms msong : ℝ)
    (dbS bwS : List ℝ)
    (h1 : dbS.Perm (smooth rmsDb (smoothFrames sr hop))) (h2 : dbS.Sorted (· ≤ ·))
    (h3 : bwS.Perm (smooth bwRaw (smoothFrames sr hop))) (h4 : bwS.Sorted (· ≤ ·)) :
    (detectCore rmsDb bwRaw sr hop total ms msong).energy_thresh
      = (dbS.drop (3 * dbS.length / 4)).sum
          / ((dbS.drop (3 * dbS.length / 4)).length : ℝ) - 15
    ∧ (detectCore rmsDb bwRaw sr hop total ms msong).bw_thresh
      = ((bwS.drop (3 * bwS.length / 4)).sum
          / ((bwS.drop (3 * bwS.length / 4)).length : ℝ)) * (2 / 5) := by
  have key : ∀ (l sorted : List ℝ), sorted.Perm l → sorted.Sorted (· ≤ ·) →
      loudMeanOf l = (sorted.drop (3 * sorted.length / 4)).sum
        / ((sorted.drop (3 * sorted.length / 4)).length : ℝ) := by
    intro l sorted hp hs
    have heq : sortR l = sorted := by
      apply List.eq_of_perm_of_sorted ?_ (List.sorted_insertionSort _ l) hs
      exact (List.perm_insertionSort _ l).trans hp.symm
    have hlen : l.length = sorted.length := hp.length_eq.symm
    unfold loudMeanOf
    rw [heq, hlen]
  constructor
  · show loudMeanOf (smooth rmsDb (smoothFrames sr hop)) - 15 = _
    rw [key _ dbS h1 h2]
  · show loudMeanOf (smooth bwRaw (smoothFrames sr hop)) * (2 / 5) = _
    rw [key _ bwS h3 h4]

theorem C6_thresholds_witness :
    ([(-200 : ℝ), 0].Perm (smooth [0, -200] (smoothFrames 2048 2048))
      ∧ [(-200 : ℝ), 0].Sorted (· ≤ ·)
      ∧ [(0 : ℝ), 10].Perm (smooth [10, 0] (smoothFrames 2048 2048))
      ∧ [(0 : ℝ), 10].Sorted (· ≤ ·)) ∧
    (detectCore [0, -200] [10, 0] 2048 2048 4096 5 30).energy_thresh
      = ([(-200 : ℝ), 0].drop (3 * [(-200 : ℝ), 0].length / 4)).sum
          / (([(-200 : ℝ), 0].drop (3 * [(-200 : ℝ), 0].length / 4)).length : ℝ) - 15
    ∧ (detectCore [0, -200] [10, 0] 2048 2048 4096 5 30).bw_thresh
      = (([(0 : ℝ), 10].drop (3 * [(0 : ℝ), 10].length / 4)).sum
          / (([(0 : ℝ), 10].drop (3 * [(0 : ℝ), 10].length / 4)).length : ℝ)) * (2 / 5) := by
  have hsm1 : smooth [(0 : ℝ), -200] (smoothFrames 2048 2048) = [0, -200] := by
    norm_num [smooth, smoothFrames]
  have hsm2 : smooth [(10 : ℝ), 0] (smoothFrames 2048 2048) = [10, 0] := by
    norm_num [smooth, smoothFrames]
  have hp1 : [(-200 : ℝ), 0].Perm (smooth [0, -200] (smoothFrames 2048 2048)) := by
    rw [hsm1]
    exact List.Perm.swap 0 (-200) []
  have hp2 : [(0 : ℝ), 10].Perm (smooth [10, 0] (smoothFrames 2048 2048)) := by
    rw [hsm2]
    exact List.Perm.swap 10 0 []
  have hs1 : [(-200 : ℝ), 0].Sorted (· ≤ ·) := by
    rw [List.sorted_cons]
    refine ⟨?_, List.sorted_singleton 0⟩
    intro b hb
    rw [List.mem_singleton.mp hb]
    norm_num
  have hs2 : [(0 : ℝ), 10].Sorted (· ≤ ·) := by
    rw [List.sorted_cons]
    refine ⟨?_, List.sorted_singleton 10⟩
    intro b hb
    rw [List.mem_singleton.mp hb]
    norm_num
  exact ⟨⟨hp1, hs1, hp2, hs2⟩,
    C6_thresholds [0, -200] [10, 0] 2048 2048 4096 5 30 [-200, 0] [0, 10] hp1 hs1 hp2 hs2⟩

/-- C7.  Each retained quiet region contributes the split sample
`((start + end) // 2) * hop_length`; the natural-number division used in the
embedding agrees with Python's floor division `Int.fdiv` on these non-negative
operands, and the segment boundaries of the pipeline are built from exactly
these split samples. -/
theorem C7_split_midpoint (regions : List (ℕ × ℕ)) (hop : ℕ) (rmsDb bwRaw : List ℝ)
    (sr total : ℕ) (ms msong : ℝ) :
    splitSamples regions hop
      = regions.map (fun r => (((r.1 : ℤ) + (r.2 : ℤ)).fdiv 2).toNat * hop) ∧
    (detectCore rmsDb bwRaw sr hop total ms msong).segments
      = reindex (mergePass msong (mkSegments (mkBoundaries
          (splitSamples ((detectCore rmsDb bwRaw sr hop total ms msong).quiet_regions) hop)
          total) sr)) := by
  constructor
  · unfold splitSamples
    apply List.map_congr_left
    intro r _
    have hc : ((r.1 : ℤ) + (r.2 : ℤ)) = ((r.1 + r.2 : ℕ) : ℤ) := by
      push_cast
      ring
    have h2 : (((r.1 + r.2 : ℕ) : ℤ).fdiv 2).toNat = (r.1 + r.2) / 2 := by
      rw [Int.fdiv_eq_ediv _ (by omega)]
      omega
    rw [hc, h2]
  · exact detectCore_segments_eq rmsDb bwRaw sr hop total ms msong

end Splitter

namespace Splitter

/-- C8.  On an all-zero buffer at least one frame long (any frame/hop
configuration, positive sample rate, minimum silence duration at least the
default 5 seconds), the pipeline completes without any numeric error and
returns exactly one segment spanning the whole duration; the dB conversion
gives every frame the `-80` floor (zero reference maximum) and every frame's
bandwidth is `0` (total spectral power below `1e-20`). -/
theorem C8_zero_buffer (total sr : ℕ) (ms msong : ℝ) (fl hop : ℕ)
    (hn : 1 ≤ nFramesZ total fl hop) (hsr : 1 ≤ sr) (hhop : 1 ≤ hop) (hms : 5 ≤ ms) :
    detectSplitsE zeroAudio total sr ms msong fl hop
      = .ok [⟨0, 0, (total : ℝ) / (sr : ℝ), (total : ℝ) / (sr : ℝ)⟩] := by
  unfold detectSplitsE
  rw [if_neg (by omega), if_neg (by omega)]
  congr 1
  show (detectSplitsDiag zeroAudio total sr ms msong fl hop).segments = _
  unfold detectSplitsDiag
  rw [computeRms_zeroBuf, amplitudeToDb_replicate_zero, computeBw_zeroBuf]
  apply detectCore_no_regions
  exact zeroCore_regions _ sr hop total ms msong (by omega) hsr hhop hms

theorem C8_zero_buffer_witness :
    (1 ≤ nFramesZ 4096 4096 2048 ∧ (5 : ℝ) ≤ 5) ∧
    detectSplitsE zeroAudio 4096 2048 5 120 4096 2048
      = .ok [⟨0, 0, ((4096 : ℕ) : ℝ) / ((2048 : ℕ) : ℝ),
          ((4096 : ℕ) : ℝ) / ((2048 : ℕ) : ℝ)⟩] :=
  ⟨⟨by decide, le_refl 5⟩,
    C8_zero_buffer 4096 2048 5 120 4096 2048 (by decide) (by decide) (by decide) (le_refl 5)⟩

/-- C9 (amended).  The value `detect_splits` returns is exactly the segment
list: the adaptive thresholds and the loud-region means are computed (they
satisfy their defining equations in the diagnostic record, whose fields the
source merely prints) but are not part of the returned value. -/
theorem C9_return_value (audio : ℕ → ℝ) (total sr : ℕ) (ms msong : ℝ) (fl hop : ℕ) :
    detectSplits audio total sr ms msong fl hop
      = (detectSplitsDiag audio total sr ms msong fl hop).segments ∧
    (detectSplitsDiag audio total sr ms msong fl hop).energy_thresh
      = (detectSplitsDiag audio total sr ms msong fl hop).loud_mean - 15 ∧
    (detectSplitsDiag audio total sr ms msong fl hop).bw_thresh
      = (detectSplitsDiag audio total sr ms msong fl hop).bw_loud_mean * (2 / 5) :=
  ⟨rfl, rfl, rfl⟩

/-- C9 counterexample: two inputs whose computed energy thresholds differ
(`-95` dB for the silent buffer, `-15` dB for the spike) produce identical
return values, so the thresholds are not recoverable from — and hence not
exposed in — what the caller receives. -/
theorem C9_hidden_thresholds_counterexample :
    detectSplits zeroAudio 4096 2048 5 30 4096 2048
      = detectSplits spikeAudio 4096 2048 5 30 4096 2048 ∧
    (detectSplitsDiag zeroAudio 4096 2048 5 30 4096 2048).energy_thresh
      ≠ (detectSplitsDiag spikeAudio 4096 2048 5 30 4096 2048).energy_thresh := by
  constructor
  · show (detectSplitsDiag zeroAudio 4096 2048 5 30 4096 2048).segments
      = (detectSplitsDiag spikeAudio 4096 2048 5 30 4096 2048).segments
    rw [diagEval_zero, diagEval_spike]
  · rw [diagEval_zero, diagEval_spike]
    norm_num

/-- C10.  Every segment returned by `detect_splits` satisfies
`duration_sec = end_sec - start_sec` exactly, for segments appended unchanged
and for segments extended by absorbing successors alike. -/
theorem C10_duration_consistency (audio : ℕ → ℝ) (total sr : ℕ) (ms msong : ℝ)
    (fl hop : ℕ) :
    ∀ s ∈ detectSplits audio total sr ms msong fl hop,
      s.duration_sec = s.end_sec - s.start_sec :=
  (backHalf_basic ((detectSplitsDiag audio total sr ms msong fl hop).quiet_regions)
    hop total sr msong (detectSplits audio total sr ms msong fl hop) rfl).2.1

theorem C10_duration_consistency_witness :
    (⟨0, 0, 2, 2⟩ : Segment) ∈ detectSplits zeroAudio 4096 2048 5 30 4096 2048 ∧
    (⟨0, 0, 2, 2⟩ : Segment).duration_sec
      = (⟨0, 0, 2, 2⟩ : Segment).end_sec - (⟨0, 0, 2, 2⟩ : Segment).start_sec := by
  have hmem : (⟨0, 0, 2, 2⟩ : Segment) ∈ detectSplits zeroAudio 4096 2048 5 30 4096 2048 := by
    show _ ∈ (detectSplitsDiag zeroAudio 4096 2048 5 30 4096 2048).segments
    rw [diagEval_zero]
    simp
  exact ⟨hmem, C10_duration_consistency zeroAudio 4096 2048 5 30 4096 2048 _ hmem⟩

end Splitter
